import Mathlib

/-!
Verification of the `evmdump` EVM disassembler core.

The development shallowly embeds the two core source modules:

* `src/disassembler.rs` — the hex-tolerant byte reader and the instruction
  decoder (`Disassembler::read`, `next_byte`, `next_word`,
  `next_instruction`), modelled as explicit state passing over `DisState`.
  The input stream is a `List Nat` of raw bytes (each intended `< 256`);
  machine integers are modelled as `Nat`.
* `src/instruction.rs` — the `Instruction` enum and its `Display`
  implementation, modelled as an inductive type and a pure `display`
  function returning a `String`.

Fallible operations return `Except Unit` (all error kinds of the source —
I/O end-of-file mid-read, invalid UTF-8, invalid digit — collapse to one
error value, since the program aborts identically on each).
-/

namespace Evmdump

/-- The `Instruction` enum from `src/instruction.rs`, in source order. -/
inductive Instruction where
  | Stop
  | Add
  | Mul
  | Sub
  | Div
  | Sdiv
  | Mod
  | Smod
  | AddMod
  | MulMod
  | Exp
  | SignExtend
  | Lt
  | Gt
  | Slt
  | Sgt
  | Eq
  | IsZero
  | And
  | Or
  | Xor
  | Not
  | Byte
  | Shl
  | Shr
  | Sar
  | Keccak256
  | Address
  | Balance
  | Origin
  | Caller
  | CallValue
  | CallDataLoad
  | CallDataSize
  | CallDataCopy
  | CodeSize
  | CodeCopy
  | GasPrice
  | ExtCodeSize
  | ExtCodeCopy
  | ReturnDataSize
  | ReturnDataCopy
  | ExtCodeHash
  | BlockHash
  | Coinbase
  | Timestamp
  | Number
  | Difficulty
  | GasLimit
  | ChainId
  | Pop
  | MLoad
  | MStore
  | MStore8
  | SLoad
  | SStore
  | Jump
  | JumpI
  | GetPc
  | MSize
  | Gas
  | JumpDest (offset : Nat)
  | Push (size : Nat) (value : Nat)
  | Dup (slot : Nat)
  | Swap (slot : Nat)
  | Log (topics : Nat)
  | Create
  | Call
  | CallCode
  | Return
  | DelegateCall
  | Create2
  | StaticCall
  | Revert
  | Invalid
  | SelfDestruct
  | Unknown (op : Nat)

/-- `u8::is_ascii_whitespace`: space, horizontal tab, line feed, form feed,
carriage return. -/
def isAsciiWhitespace (b : Nat) : Bool :=
  b == 0x20 || b == 0x09 || b == 0x0a || b == 0x0c || b == 0x0d

/-- `char::to_digit(16)` on a raw input byte: the value of an ASCII hex
digit (`0-9`, `a-f`, `A-F`), or `none`.  Bytes that are not ASCII hex
digits (including all bytes `≥ 0x80`, which either fail UTF-8 validation
or decode to non-hex characters in the source) yield `none`. -/
def hexDigitVal (b : Nat) : Option Nat :=
  if 0x30 ≤ b ∧ b ≤ 0x39 then some (b - 0x30)
  else if 0x61 ≤ b ∧ b ≤ 0x66 then some (b - 0x57)
  else if 0x41 ≤ b ∧ b ≤ 0x46 then some (b - 0x37)
  else none

/-- Accumulating digit loop of `from_str_radix` (radix 16): fails on the
first non-hex-digit byte. -/
def parseHexAux : List Nat → Nat → Option Nat
  | [], acc => some acc
  | b :: rest, acc =>
    match hexDigitVal b with
    | some d => parseHexAux rest (acc * 16 + d)
    | none => none

/-- `from_str_radix(s, 16)` for an unsigned integer type with exclusive
upper bound `bound` (`256` for `u8`, `2 ^ 256` for `ethnum::U256`):
an optional leading `+` sign followed by one or more hex digits.  A `-`
sign is not accepted for unsigned types, an empty digit string is an
error, and a result reaching `bound` is an overflow error. -/
def fromStrRadix16 (bound : Nat) (s : List Nat) : Option Nat :=
  match s with
  | [] => none
  | b :: rest =>
    match (if b == 0x2b then rest else b :: rest) with
    | [] => none
    | ds => (parseHexAux ds 0).bind (fun v => if v < bound then some v else none)

/-- Decoder state: the remaining raw input bytes, the decoded-byte offset
counter and the sticky `unknown` (degraded-mode) flag — the three fields
of `Disassembler` in `src/disassembler.rs`. -/
structure DisState where
  input : List Nat
  offset : Nat
  unknown : Bool
deriving DecidableEq, Repr

/-- `Disassembler::new`: initial state bound to an input stream. -/
def initState (input : List Nat) : DisState :=
  { input := input, offset := 0, unknown := false }

/-- Skip ASCII whitespace bytes, then take one byte: the inner `loop` of
`Disassembler::read` for a single buffer position.  `none` means the
stream was exhausted (an `UnexpectedEof` from `read_exact`). -/
def skipWs : List Nat → Option (Nat × List Nat)
  | [] => none
  | b :: rest =>
    if isAsciiWhitespace b then skipWs rest else some (b, rest)

/-- The character-collection loop of `Disassembler::read`: gather `count`
non-whitespace bytes.  On end-of-input the error carries the index of the
buffer position at which `read_exact` failed (the number of characters
already collected), as the source's `(usize, io::Error)` does. -/
def readChars : Nat → List Nat → Except Nat (List Nat × List Nat)
  | 0, s => .ok ([], s)
  | n + 1, s =>
    match skipWs s with
    | none => .error 0
    | some (c, s1) =>
      match readChars n s1 with
      | .ok (cs, s2) => .ok (c :: cs, s2)
      | .error i => .error (i + 1)

namespace Disassembler

/-- `Disassembler::read`: advance `offset` by `count / 2` (done before the
read loop in the source), then collect `count` hex characters, skipping
whitespace. -/
def read (count : Nat) (st : DisState) : Except Nat (List Nat × DisState) :=
  match readChars count st.input with
  | .ok (cs, rest) =>
    .ok (cs, { input := rest, offset := st.offset + count / 2, unknown := st.unknown })
  | .error i => .error i

/-- `Disassembler::next_byte`: read two hex characters and parse them with
`u8::from_str_radix(_, 16)`.  An `UnexpectedEof` at buffer index 0 is
clean end-of-input (`Ok(None)`); any later end-of-input or parse failure
is an error. -/
def next_byte (st : DisState) : Except Unit (Option (Nat × DisState)) :=
  match read 2 st with
  | .error 0 => .ok none
  | .error _ => .error ()
  | .ok (cs, st1) =>
    match fromStrRadix16 256 cs with
    | some v => .ok (some (v, st1))
    | none => .error ()

/-- `Disassembler::next_word`: read `size * 2` hex characters and parse
them with `U256::from_str_radix(_, 16)`.  Any read failure — including
clean end-of-input at the first character — is an error. -/
def next_word (size : Nat) (st : DisState) : Except Unit (Nat × DisState) :=
  match read (size * 2) st with
  | .error _ => .error ()
  | .ok (cs, st1) =>
    match fromStrRadix16 (2 ^ 256) cs with
    | some v => .ok (v, st1)
    | none => .error ()

end Disassembler

/-- What the opcode `match` of `Disassembler::next_instruction` does with
one opcode byte, before any further input is consumed: emit a fixed
instruction, emit a `JumpDest` stamped with the current offset, read a
push operand of the given size, or fall through to the `Unknown` arm.
The literal arms and ranges are exactly those of the source `match`. -/
inductive OpAction where
  | emit (i : Instruction)
  | jumpdest
  | push (size : Nat)
  | unknownOp

/-- The opcode table of `Disassembler::next_instruction` (`src/disassembler.rs`
lines 91–174), arm for arm: literal opcodes map to payload-free variants,
`0x5b` is the jump-destination arm, `0x60..=0x7f` are pushes of size
`op - 0x5f`, `0x80..=0x8f` duplicates, `0x90..=0x9f` swaps, `0xa0..=0xa4`
logs, and everything else falls through to the `Unknown` arm. -/
def opAction (op : Nat) : OpAction :=
  match op with
  | 0x00 => .emit .Stop
  | 0x01 => .emit .Add
  | 0x02 => .emit .Mul
  | 0x03 => .emit .Sub
  | 0x04 => .emit .Div
  | 0x05 => .emit .Sdiv
  | 0x06 => .emit .Mod
  | 0x07 => .emit .Smod
  | 0x08 => .emit .AddMod
  | 0x09 => .emit .MulMod
  | 0x0a => .emit .Exp
  | 0x0b => .emit .SignExtend
  | 0x10 => .emit .Lt
  | 0x11 => .emit .Gt
  | 0x12 => .emit .Slt
  | 0x13 => .emit .Sgt
  | 0x14 => .emit .Eq
  | 0x15 => .emit .IsZero
  | 0x16 => .emit .And
  | 0x17 => .emit .Or
  | 0x18 => .emit .Xor
  | 0x19 => .emit .Not
  | 0x1a => .emit .Byte
  | 0x1b => .emit .Shl
  | 0x1c => .emit .Shr
  | 0x1d => .emit .Sar
  | 0x20 => .emit .Keccak256
  | 0x30 => .emit .Address
  | 0x31 => .emit .Balance
  | 0x32 => .emit .Origin
  | 0x33 => .emit .Caller
  | 0x34 => .emit .CallValue
  | 0x35 => .emit .CallDataLoad
  | 0x36 => .emit .CallDataSize
  | 0x37 => .emit .CallDataCopy
  | 0x38 => .emit .CodeSize
  | 0x39 => .emit .CodeCopy
  | 0x3a => .emit .GasPrice
  | 0x3b => .emit .ExtCodeSize
  | 0x3c => .emit .ExtCodeCopy
  | 0x3d => .emit .ReturnDataSize
  | 0x3e => .emit .ReturnDataCopy
  | 0x3f => .emit .ExtCodeHash
  | 0x40 => .emit .BlockHash
  | 0x41 => .emit .Coinbase
  | 0x42 => .emit .Timestamp
  | 0x43 => .emit .Number
  | 0x44 => .emit .Difficulty
  | 0x45 => .emit .GasLimit
  | 0x46 => .emit .ChainId
  | 0x50 => .emit .Pop
  | 0x51 => .emit .MLoad
  | 0x52 => .emit .MStore
  | 0x53 => .emit .MStore8
  | 0x54 => .emit .SLoad
  | 0x55 => .emit .SStore
  | 0x56 => .emit .Jump
  | 0x57 => .emit .JumpI
  | 0x58 => .emit .GetPc
  | 0x59 => .emit .MSize
  | 0x5a => .emit .Gas
  | 0x5b => .jumpdest
  | 0xf0 => .emit .Create
  | 0xf1 => .emit .Call
  | 0xf2 => .emit .CallCode
  | 0xf3 => .emit .Return
  | 0xf4 => .emit .DelegateCall
  | 0xf5 => .emit .Create2
  | 0xfa => .emit .StaticCall
  | 0xfd => .emit .Revert
  | 0xfe => .emit .Invalid
  | 0xff => .emit .SelfDestruct
  | _ =>
    if 0x60 ≤ op ∧ op ≤ 0x7f then .push (op - 0x5f)
    else if 0x80 ≤ op ∧ op ≤ 0x8f then .emit (.Dup (op - 0x7f))
    else if 0x90 ≤ op ∧ op ≤ 0x9f then .emit (.Swap (op - 0x8f))
    else if 0xa0 ≤ op ∧ op ≤ 0xa4 then .emit (.Log (op - 0xa0))
    else .unknownOp

namespace Disassembler

/-- Execution of the selected opcode arm on the decoder state (the state
already reflects `next_byte` having consumed the opcode byte, so the
jump-destination arm yields `JumpDest(offset - 1)` as in the source). -/
def decodeOp (op : Nat) (st : DisState) : Except Unit (Instruction × DisState) :=
  match opAction op with
  | .emit i => .ok (i, st)
  | .jumpdest => .ok (.JumpDest (st.offset - 1), st)
  | .push size =>
    match next_word size st with
    | .ok (v, st1) => .ok (.Push size v, st1)
    | .error e => .error e
  | .unknownOp => .ok (.Unknown op, { st with unknown := true })

/-- `Disassembler::next_instruction`: read one opcode byte (`Ok(None)` on
clean end-of-input); in degraded mode emit `Unknown(op)` without a table
lookup; otherwise run the opcode table. -/
def next_instruction (st : DisState) :
    Except Unit (Option (Instruction × DisState)) :=
  match next_byte st with
  | .error e => .error e
  | .ok none => .ok none
  | .ok (some (op, st1)) =>
    if st1.unknown then .ok (some (.Unknown op, st1))
    else
      match decodeOp op st1 with
      | .ok (i, st2) => .ok (some (i, st2))
      | .error e => .error e

end Disassembler

/-- The driver loop of `fn disassemble` in `src/main.rs`, with explicit
fuel (each produced instruction consumes at least two input bytes, so any
fuel larger than half the input length reaches end-of-input or an error). -/
def disassembleFuel : Nat → DisState → Except Unit (List Instruction)
  | 0, _ => .ok []
  | fuel + 1, st =>
    match Disassembler.next_instruction st with
    | .error e => .error e
    | .ok none => .ok []
    | .ok (some (i, st1)) =>
      match disassembleFuel fuel st1 with
      | .ok l => .ok (i :: l)
      | .error e => .error e

/-- Decode a whole input stream to its instruction sequence. -/
def disassemble (input : List Nat) : Except Unit (List Instruction) :=
  disassembleFuel (input.length + 1) (initState input)

/-- Raw bytes of an ASCII string, for writing concrete inputs readably. -/
def asciiBytes (s : String) : List Nat :=
  s.data.map Char.toNat

/-! ### Derived notions used to state the claims -/

/-- Byte value of the lowercase ASCII hex digit for `d < 16`. -/
def hexDigitByte (d : Nat) : Nat :=
  if d < 10 then 0x30 + d else 0x57 + d

/-- Canonical two-character lowercase hex encoding of one byte. -/
def encodeByte (b : Nat) : List Nat :=
  [hexDigitByte (b / 16), hexDigitByte (b % 16)]

/-- Canonical hex encoding of a byte sequence. -/
def encodeBytes (bs : List Nat) : List Nat :=
  (bs.map encodeByte).flatten

/-- Big-endian unsigned value of a byte sequence. -/
def beBytesVal (bs : List Nat) : Nat :=
  bs.foldl (fun acc b => acc * 256 + b) 0

/-- `true` unless the instruction is the `Unknown` catch-all variant. -/
def notUnknownB : Instruction → Bool
  | .Unknown _ => false
  | _ => true

/-- Decoding the single byte `b` (hex-encoded) from the initial state
produces a known (non-`Unknown`) instruction and leaves the decoder in
`Normal` mode. -/
def decodesKnownAlone (b : Nat) : Bool :=
  match Disassembler.next_instruction (initState (encodeByte b)) with
  | .ok (some (i, st1)) => notUnknownB i && !st1.unknown
  | _ => false

/-- The single-byte opcode ranges the claim lists as recognized:
`0x00..=0x1d`, `0x20`, `0x30..=0x46`, `0x50..=0x5a`, `0xf0..=0xff`. -/
def claimedRecognized (b : Nat) : Bool :=
  b ≤ 0x1d || b == 0x20 || (0x30 ≤ b && b ≤ 0x46) ||
    (0x50 ≤ b && b ≤ 0x5a) || (0xf0 ≤ b && b ≤ 0xff)

/-- The single-byte opcodes (outside the push/dup/swap/log/jumpdest
families) that the decode table actually recognizes: the claimed ranges
minus the gaps `0x0c..=0x0f`, `0xf6..=0xf9` and `0xfb..=0xfc`. -/
def recognizedByte (b : Nat) : Bool :=
  b ≤ 0x0b || (0x10 ≤ b && b ≤ 0x1d) || b == 0x20 ||
    (0x30 ≤ b && b ≤ 0x46) || (0x50 ≤ b && b ≤ 0x5a) ||
    (0xf0 ≤ b && b ≤ 0xf5) || b == 0xfa || (0xfd ≤ b && b ≤ 0xff)

/-- Total bytes of bytecode one decoded instruction stands for: its opcode
byte plus, for a push, its operand bytes. -/
def instrLen : Instruction → Nat
  | .Push size _ => 1 + size
  | _ => 1

/-- Declared payload ranges of the instruction model. -/
def wfInstr : Instruction → Prop
  | .Push size value => 1 ≤ size ∧ size ≤ 32 ∧ value < 256 ^ size
  | .Dup slot => 1 ≤ slot ∧ slot ≤ 16
  | .Swap slot => 1 ≤ slot ∧ slot ≤ 16
  | .Log topics => topics ≤ 4
  | _ => True

/-- Push-size classifier for an opcode-table action. -/
def opActionIsPush : OpAction → Option Nat
  | .push size => some size
  | _ => none

/-- Decidable form of `wfInstr`. -/
def wfInstrB : Instruction → Bool
  | .Push size value => decide (1 ≤ size ∧ size ≤ 32 ∧ value < 256 ^ size)
  | .Dup slot => decide (1 ≤ slot ∧ slot ≤ 16)
  | .Swap slot => decide (1 ≤ slot ∧ slot ≤ 16)
  | .Log topics => decide (topics ≤ 4)
  | _ => true

/-- Whatever the opcode table does with a byte, any instruction it emits
directly is well-formed, and any push it starts has size `1..=32`. -/
def opActionWfCheck (op : Nat) : Bool :=
  match opAction op with
  | .emit i => wfInstrB i
  | .push size => decide (1 ≤ size ∧ size ≤ 32)
  | _ => true

/-- An `emit` action never emits the `Unknown` variant. -/
def emitNotUnknown : OpAction → Bool
  | .emit i => notUnknownB i
  | _ => true

/-- `true` unless the instruction is a `JumpDest`. -/
def notJumpdestB : Instruction → Bool
  | .JumpDest _ => false
  | _ => true

/-- An `emit` action never emits a `JumpDest`, and what it emits always
stands for exactly one byte of bytecode. -/
def emitStepB : OpAction → Bool
  | .emit i => notJumpdestB i && (instrLen i == 1)
  | _ => true

/-- Case normalization of input bytes: maps the uppercase hex letters
`A`–`F` to their lowercase forms and fixes every other byte.  Two inputs
with the same image under `List.map lowerHex` differ only by the case of
hex letters. -/
def lowerHex (b : Nat) : Nat :=
  if 0x41 ≤ b ∧ b ≤ 0x46 then b + 32 else b

/-- The part of an input stream the decoder can observe: its
non-whitespace bytes, with hex-letter case normalized. -/
def canon (s : List Nat) : List Nat :=
  (s.filter (fun b => !isAsciiWhitespace b)).map lowerHex

/-- Two decoder states that the decoder cannot distinguish: equal offsets
and flags, and observably equal remaining input. -/
def StRel (t1 t2 : DisState) : Prop :=
  canon t1.input = canon t2.input ∧ t1.offset = t2.offset ∧ t1.unknown = t2.unknown

/-- Lifts `StRel` to the results of `next_word` / `decodeOp`-style calls:
the payloads agree and the successor states are indistinguishable. -/
def exceptRel {α : Type} (r : α × DisState → α × DisState → Prop) :
    Except Unit (α × DisState) → Except Unit (α × DisState) → Prop
  | .error _, .error _ => True
  | .ok p1, .ok p2 => r p1 p2
  | _, _ => False

/-- Lifts `StRel` to the results of `next_instruction`: both end the
stream, both fail, or both produce the same instruction and
indistinguishable successor states. -/
def stepRel :
    Except Unit (Option (Instruction × DisState)) →
      Except Unit (Option (Instruction × DisState)) → Prop
  | .error _, .error _ => True
  | .ok none, .ok none => True
  | .ok (some (i1, t1)), .ok (some (i2, t2)) => i1 = i2 ∧ StRel t1 t2
  | _, _ => False

/-! ### The instruction rendering of `impl Display for Instruction` -/

/-- Lowercase hex digit character for `d < 16`, as the Rust `LowerHex`
formatter produces. -/
def hexChar (d : Nat) : Char :=
  if d < 10 then Char.ofNat (48 + d) else Char.ofNat (87 + d)

/-- Hex digits of `n`, most significant first, with explicit fuel (the
loop of the `{:x}` formatter). -/
def hexRepr : Nat → Nat → List Char
  | 0, _ => []
  | fuel + 1, n =>
    if n < 16 then [hexChar n]
    else hexRepr fuel (n / 16) ++ [hexChar (n % 16)]

/-- `{:x}`: lowercase hex rendering of `n`, `"0"` for zero, no padding. -/
def natHexChars (n : Nat) : List Char :=
  hexRepr (n + 1) n

/-- Left-pad with `'0'` to a minimum width, as `{:0w$x}` does. -/
def zeroPad (w : Nat) (ds : List Char) : List Char :=
  List.replicate (w - ds.length) '0' ++ ds

/-- `impl Display for Instruction` (`src/instruction.rs` lines 168–251),
arm for arm. -/
def Instruction.display : Instruction → String
  | .Stop => "stop"
  | .Add => "add"
  | .Mul => "mul"
  | .Sub => "sub"
  | .Div => "div"
  | .Sdiv => "sdiv"
  | .Mod => "mod"
  | .Smod => "smod"
  | .AddMod => "addmod"
  | .MulMod => "mulmod"
  | .Exp => "exp"
  | .SignExtend => "signextend"
  | .Lt => "lt"
  | .Gt => "gt"
  | .Slt => "slt"
  | .Sgt => "sgt"
  | .Eq => "eq"
  | .IsZero => "iszero"
  | .And => "and"
  | .Or => "or"
  | .Xor => "xor"
  | .Not => "not"
  | .Byte => "byte"
  | .Shl => "shl"
  | .Shr => "shr"
  | .Sar => "sar"
  | .Keccak256 => "keccak256"
  | .Address => "address"
  | .Balance => "balance"
  | .Origin => "origin"
  | .Caller => "caller"
  | .CallValue => "callvalue"
  | .CallDataLoad => "calldataload"
  | .CallDataSize => "calldatasize"
  | .CallDataCopy => "calldatacopy"
  | .CodeSize => "codesize"
  | .CodeCopy => "codecopy"
  | .GasPrice => "gasprice"
  | .ExtCodeSize => "extcodesize"
  | .ExtCodeCopy => "extcodecopy"
  | .ReturnDataSize => "returndatasize"
  | .ReturnDataCopy => "returndatacopy"
  | .ExtCodeHash => "extcodehash"
  | .BlockHash => "blockhash"
  | .Coinbase => "coinbase"
  | .Timestamp => "timestamp"
  | .Number => "number"
  | .Difficulty => "difficulty"
  | .GasLimit => "gaslimit"
  | .ChainId => "chainid"
  | .Pop => "pop"
  | .MLoad => "mload"
  | .MStore => "mstore"
  | .MStore8 => "mstore8"
  | .SLoad => "sload"
  | .SStore => "sstore"
  | .Jump => "jump"
  | .JumpI => "jumpi"
  | .GetPc => "getpc"
  | .MSize => "msize"
  | .Gas => "gas"
  | .JumpDest offset => "jumpdest :" ++ String.mk (natHexChars offset)
  | .Push size value =>
    "push" ++ toString size ++ " " ++ String.mk (zeroPad (size * 2) (natHexChars value))
  | .Dup slot => "dup" ++ toString slot
  | .Swap slot => "swap" ++ toString slot
  | .Log topics => "log" ++ toString topics
  | .Create => "create"
  | .Call => "call"
  | .CallCode => "callcode"
  | .Return => "return"
  | .DelegateCall => "delegatecall"
  | .Create2 => "create2"
  | .StaticCall => "staticcall"
  | .Revert => "revert"
  | .Invalid => "invalid"
  | .SelfDestruct => "selfdestruct"
  | .Unknown op => "?" ++ String.mk (zeroPad 2 (natHexChars op)) ++ "?"

/-- Recognizer for the characters the lowercase hex formatter may output. -/
def isLowerHexChar (c : Char) : Bool :=
  ('0' ≤ c && c ≤ '9') || ('a' ≤ c && c ≤ 'f')

/-- Numeric value of one rendered hex digit character. -/
def hexCharVal (c : Char) : Nat :=
  if c.toNat < 97 then c.toNat - 48 else c.toNat - 87

/-- Big-endian numeric value denoted by a rendered hex digit string. -/
def hexValChars (ds : List Char) : Nat :=
  ds.foldl (fun acc c => acc * 16 + hexCharVal c) 0

/-! ### Basic lemmas about the reader -/

theorem readChars_zero (s : List Nat) : readChars 0 s = .ok ([], s) := rfl

theorem readChars_succ (n : Nat) (s : List Nat) :
    readChars (n + 1) s =
      match skipWs s with
      | none => .error 0
      | some (c, s1) =>
        match readChars n s1 with
        | .ok (cs, s2) => .ok (c :: cs, s2)
        | .error i => .error (i + 1) := rfl

theorem readChars_two {s r1 r2 : List Nat} {c1 c2 : Nat}
    (h1 : skipWs s = some (c1, r1)) (h2 : skipWs r1 = some (c2, r2)) :
    readChars 2 s = .ok ([c1, c2], r2) := by
  rw [readChars_succ 1 s, h1]
  simp only []
  rw [readChars_succ 0 r1, h2]
  rfl

theorem readChars_one_eof {s r1 : List Nat} {c1 : Nat}
    (h1 : skipWs s = some (c1, r1)) (h2 : skipWs r1 = none) :
    readChars 2 s = .error 1 := by
  rw [readChars_succ 1 s, h1]
  simp only []
  rw [readChars_succ 0 r1, h2]

theorem readChars_eof {s : List Nat} {n : Nat} (h : skipWs s = none) :
    readChars (n + 1) s = .error 0 := by
  rw [readChars_succ n s, h]

theorem read_ok {count : Nat} {st : DisState} {cs : List Nat} {st1 : DisState}
    (h : Disassembler.read count st = .ok (cs, st1)) :
    readChars count st.input = .ok (cs, st1.input) ∧
      st1.offset = st.offset + count / 2 ∧ st1.unknown = st.unknown := by
  unfold Disassembler.read at h
  split at h
  case _ cs' rest heq =>
    simp only [Except.ok.injEq, Prod.mk.injEq] at h
    obtain ⟨hcs, hst⟩ := h
    subst hcs
    subst hst
    exact ⟨heq, rfl, rfl⟩
  case _ => exact absurd h (by simp)

theorem read_error {count : Nat} {st : DisState} {i : Nat}
    (h : readChars count st.input = .error i) :
    Disassembler.read count st = .error i := by
  unfold Disassembler.read
  rw [h]

theorem fromStrRadix16_lt {bound : Nat} {s : List Nat} {v : Nat}
    (h : fromStrRadix16 bound s = some v) : v < bound := by
  unfold fromStrRadix16 at h
  split at h
  · exact absurd h (by simp)
  · split at h
    · exact absurd h (by simp)
    · obtain ⟨w, hw, hv⟩ := Option.bind_eq_some.mp h
      split at hv
      · cases hv; assumption
      · exact absurd hv (by simp)

theorem next_byte_ok {st : DisState} {op : Nat} {st1 : DisState}
    (h : Disassembler.next_byte st = .ok (some (op, st1))) :
    op < 256 ∧ st1.offset = st.offset + 1 ∧ st1.unknown = st.unknown := by
  unfold Disassembler.next_byte at h
  split at h
  · exact absurd h (by simp)
  · exact absurd h (by simp)
  case _ cs st' heq =>
    split at h
    case _ v hp =>
      simp only [Except.ok.injEq, Option.some.injEq, Prod.mk.injEq] at h
      obtain ⟨hv, hst⟩ := h
      subst hv
      subst hst
      obtain ⟨-, h2, h3⟩ := read_ok heq
      exact ⟨fromStrRadix16_lt hp, h2, h3⟩
    case _ => exact absurd h (by simp)

theorem next_word_ok {size : Nat} {st : DisState} {v : Nat} {st1 : DisState}
    (h : Disassembler.next_word size st = .ok (v, st1)) :
    st1.offset = st.offset + size ∧ st1.unknown = st.unknown := by
  unfold Disassembler.next_word at h
  split at h
  · exact absurd h (by simp)
  case _ cs st' heq =>
    split at h
    case _ w hp =>
      simp only [Except.ok.injEq, Prod.mk.injEq] at h
      obtain ⟨hv, hst⟩ := h
      subst hv
      subst hst
      obtain ⟨-, h2, h3⟩ := read_ok heq
      refine ⟨?_, h3⟩
      omega
    case _ => exact absurd h (by simp)

/-! ### Facts about the opcode table, by finite enumeration -/

set_option maxRecDepth 2048 in
theorem opAction_emit_notUnknown :
    ∀ op, op < 256 → emitNotUnknown (opAction op) = true := by decide

set_option maxRecDepth 2048 in
theorem opAction_wf : ∀ op, op < 256 → opActionWfCheck op = true := by decide

theorem opAction_push {op : Nat} (h1 : 0x60 ≤ op) (h2 : op ≤ 0x7f) :
    opAction op = .push (op - 0x5f) := by
  interval_cases op <;> rfl

theorem wfInstrB_wf {i : Instruction} (h : wfInstrB i = true) : wfInstr i := by
  cases i <;> simp_all [wfInstrB, wfInstr]

/-! ### Claim theorems -/

/-- C1, counterexample: byte `0x0c` lies in the spec's claimed recognized
range `0x00..=0x1d`, yet decoding it alone from the initial state yields
`Unknown(0x0c)` and puts the decoder into degraded mode — the decode
table has a gap at `0x0c..=0x0f`. -/
theorem C1_claimed_range_counterexample :
    claimedRecognized 0x0c = true ∧
    Disassembler.next_instruction (initState (encodeByte 0x0c)) =
      .ok (some (.Unknown 0x0c, ⟨[], 1, true⟩)) :=
  ⟨rfl, rfl⟩

set_option maxRecDepth 2048 in
/-- C1 (amended): for every byte in the ranges the decode table actually
recognizes (`0x00..=0x0b`, `0x10..=0x1d`, `0x20`, `0x30..=0x46`,
`0x50..=0x5a`, `0xf0..=0xf5`, `0xfa`, `0xfd..=0xff`), decoding that byte
alone in Normal state yields a known instruction variant, never
`Unknown`, and leaves the decoder in Normal mode. -/
theorem C1_recognized_single_byte_opcodes :
    ∀ b, b < 256 → recognizedByte b = true → decodesKnownAlone b = true := by
  decide

/-- Witness for `C1_recognized_single_byte_opcodes` at byte `0x01`. -/
theorem C1_recognized_single_byte_opcodes_witness :
    (0x01 < 256 ∧ recognizedByte 0x01 = true) ∧ decodesKnownAlone 0x01 = true :=
  ⟨⟨by decide, by decide⟩,
    C1_recognized_single_byte_opcodes 0x01 (by decide) (by decide)⟩

theorem fromStrRadix16_cons (bound b : Nat) (rest : List Nat) :
    fromStrRadix16 bound (b :: rest) =
      match (if b == 0x2b then rest else b :: rest) with
      | [] => none
      | ds => (parseHexAux ds 0).bind (fun v => if v < bound then some v else none) :=
  rfl

theorem fromStrRadix16_pair_none {c1 c2 : Nat}
    (hbad : hexDigitVal c2 = none ∨ (hexDigitVal c1 = none ∧ c1 ≠ 0x2b)) :
    fromStrRadix16 256 [c1, c2] = none := by
  rw [fromStrRadix16_cons]
  by_cases h1 : c1 = 0x2b
  · subst h1
    have hc2 : hexDigitVal c2 = none := by
      rcases hbad with h | ⟨-, hne⟩
      · exact h
      · exact absurd rfl hne
    simp [parseHexAux, hc2]
  · have hne : (c1 == 0x2b) = false := by simp [h1]
    cases hv1 : hexDigitVal c1 with
    | none => simp [hne, parseHexAux, hv1]
    | some d =>
      have hc2 : hexDigitVal c2 = none := by
        rcases hbad with h | ⟨hn, -⟩
        · exact h
        · rw [hv1] at hn; exact absurd hn (by simp)
      simp [hne, parseHexAux, hv1, hc2]

/-- C6, counterexample: `'+'` is a non-whitespace character that is not a
hex digit, yet the input `"+1"` decodes without error to `Add` — the
leading `'+'` is consumed as a sign by `u8::from_str_radix`. -/
theorem C6_plus_sign_counterexample :
    isAsciiWhitespace 0x2b = false ∧ hexDigitVal 0x2b = none ∧
    Disassembler.next_instruction (initState (asciiBytes "+1")) =
      .ok (some (.Add, ⟨[], 1, false⟩)) :=
  ⟨rfl, rfl, rfl⟩

/-- C6 (amended): a non-whitespace character where an opcode byte's hex
digit is expected makes `next_instruction` fail — unless it is a `'+'` in
the byte's first character position, which `from_str_radix` accepts as a
sign.  Concretely: if the two collected characters are not (hex, hex) and
not (`'+'`, hex), decoding fails. -/
theorem parseHexAux_cons_eq (c : Nat) (rest : List Nat) (acc : Nat) :
    parseHexAux (c :: rest) acc =
      match hexDigitVal c with
      | some d => parseHexAux rest (acc * 16 + d)
      | none => none := rfl

theorem parseHexAux_none_of_mem {c : Nat} (hval : hexDigitVal c = none) :
    ∀ (ds : List Nat) (acc : Nat), c ∈ ds → parseHexAux ds acc = none := by
  intro ds
  induction ds with
  | nil =>
    intro acc hc
    simp at hc
  | cons d ds2 ih =>
    intro acc hc
    rw [parseHexAux_cons_eq]
    cases hv : hexDigitVal d with
    | none => rfl
    | some x =>
      have hcd : c ≠ d := by
        intro he
        rw [he, hv] at hval
        exact absurd hval (by simp)
      have hmem : c ∈ ds2 := by
        rcases List.mem_cons.mp hc with he | hm
        · exact absurd he hcd
        · exact hm
      exact ih (acc * 16 + x) hmem

theorem fromStrRadix16_none_of_bad {bound : Nat} {cs : List Nat}
    (hbad : ∃ j c, cs[j]? = some c ∧ hexDigitVal c = none ∧
      (j = 0 → c ≠ 0x2b)) :
    fromStrRadix16 bound cs = none := by
  obtain ⟨j, c, hj, hval, hplus⟩ := hbad
  cases cs with
  | nil => simp at hj
  | cons c0 rest =>
    rw [fromStrRadix16_cons]
    by_cases h0 : c0 = 0x2b
    · have hj1 : 1 ≤ j := by
        by_contra hcon
        have hj0 : j = 0 := by omega
        subst hj0
        simp only [List.getElem?_cons_zero, Option.some.injEq] at hj
        exact hplus rfl (by rw [← hj]; exact h0)
      obtain ⟨j2, hj2⟩ : ∃ j2, j = j2 + 1 := ⟨j - 1, by omega⟩
      subst hj2
      rw [List.getElem?_cons_succ] at hj
      have hmem : c ∈ rest := List.getElem?_mem hj
      have hbeq : (c0 == 0x2b) = true := by simp [h0]
      simp only [hbeq, if_true]
      cases rest with
      | nil => rfl
      | cons d ds =>
        show (parseHexAux (d :: ds) 0).bind
            (fun v => if v < bound then some v else none) = none
        rw [parseHexAux_none_of_mem hval (d :: ds) 0 hmem]
        rfl
    · have hbeq : (c0 == 0x2b) = false := by simp [h0]
      simp only [hbeq, Bool.false_eq_true, if_false]
      have hmem : c ∈ c0 :: rest := List.getElem?_mem hj
      show (parseHexAux (c0 :: rest) 0).bind
          (fun v => if v < bound then some v else none) = none
      rw [parseHexAux_none_of_mem hval (c0 :: rest) 0 hmem]
      rfl

/-- C6 (amended): a non-whitespace character that is not a hex digit,
where a hex digit is expected, makes `next_instruction` fail — at an
opcode byte's two character positions, and at every character position
of a push operand — unless it is a `'+'` in the first character position
of the byte or of the operand, which `from_str_radix` accepts as a sign
(so `"60+1"` decodes like `"6001"`). -/
theorem C6_invalid_char_is_error :
    (∀ (st : DisState) (c1 c2 : Nat) (r1 r2 : List Nat),
      skipWs st.input = some (c1, r1) → skipWs r1 = some (c2, r2) →
      (hexDigitVal c2 = none ∨ (hexDigitVal c1 = none ∧ c1 ≠ 0x2b)) →
      Disassembler.next_instruction st = .error ()) ∧
    (∀ (st : DisState) (op : Nat) (st1 : DisState) (cs r : List Nat),
      st.unknown = false →
      Disassembler.next_byte st = .ok (some (op, st1)) →
      0x60 ≤ op → op ≤ 0x7f →
      readChars ((op - 0x5f) * 2) st1.input = .ok (cs, r) →
      (∃ j c, cs[j]? = some c ∧ hexDigitVal c = none ∧ (j = 0 → c ≠ 0x2b)) →
      Disassembler.next_instruction st = .error ()) ∧
    Disassembler.next_instruction (initState (asciiBytes "60+1")) =
      .ok (some (.Push 1 1, ⟨[], 2, false⟩)) := by
  refine ⟨?_, ?_, rfl⟩
  · intro st c1 c2 r1 r2 h1 h2 hbad
    have hrc : readChars 2 st.input = .ok ([c1, c2], r2) := readChars_two h1 h2
    have hrd : Disassembler.read 2 st =
        .ok ([c1, c2], ⟨r2, st.offset + 1, st.unknown⟩) := by
      unfold Disassembler.read
      rw [hrc]
    have hb : Disassembler.next_byte st = .error () := by
      unfold Disassembler.next_byte
      rw [hrd]
      simp [fromStrRadix16_pair_none hbad]
    unfold Disassembler.next_instruction
    rw [hb]
  · intro st op st1 cs r hu hb h1 h2 hrc hbad
    have hread : Disassembler.read ((op - 0x5f) * 2) st1 =
        .ok (cs, ⟨r, st1.offset + (op - 0x5f) * 2 / 2, st1.unknown⟩) := by
      unfold Disassembler.read
      rw [hrc]
    have hw : Disassembler.next_word (op - 0x5f) st1 = .error () := by
      unfold Disassembler.next_word
      rw [hread]
      show (match fromStrRadix16 (2 ^ 256) cs with
        | some v => Except.ok (v,
            (⟨r, st1.offset + (op - 0x5f) * 2 / 2, st1.unknown⟩ : DisState))
        | none => Except.error ()) = Except.error ()
      rw [fromStrRadix16_none_of_bad hbad]
    have hd : Disassembler.decodeOp op st1 = .error () := by
      unfold Disassembler.decodeOp
      rw [opAction_push h1 h2]
      simp [hw]
    obtain ⟨-, -, hueq⟩ := next_byte_ok hb
    unfold Disassembler.next_instruction
    rw [hb]
    simp [hueq, hu, hd]

/-- Witness for `C6_invalid_char_is_error`: the invalid character `'g'`
makes decoding fail both at an opcode byte (`"g0"`) and inside a push
operand (`"60g0"`). -/
theorem C6_invalid_char_is_error_witness :
    Disassembler.next_instruction (initState (asciiBytes "g0")) = .error () ∧
    Disassembler.next_instruction (initState (asciiBytes "60g0")) = .error () :=
  ⟨C6_invalid_char_is_error.1 (initState (asciiBytes "g0")) 103 48 [48] []
      rfl rfl (Or.inr ⟨rfl, by decide⟩),
    C6_invalid_char_is_error.2.1 (initState (asciiBytes "60g0")) 0x60
      ⟨asciiBytes "g0", 1, false⟩ [103, 48] [] rfl rfl (by decide) (by decide)
      rfl ⟨0, 103, rfl, rfl, fun h => by decide⟩⟩

theorem next_word_error {size : Nat} {st : DisState} {i : Nat}
    (h : readChars (size * 2) st.input = .error i) :
    Disassembler.next_word size st = .error () := by
  unfold Disassembler.next_word
  rw [read_error h]

/-- C5: end-of-input reached before the first hex character of a new
opcode byte ends the sequence cleanly (`Ok(None)`); end-of-input after
the first hex digit of a byte was consumed, or anywhere inside a push
operand, is a decode error. -/
theorem C5_end_of_input (st : DisState) :
    (skipWs st.input = none → Disassembler.next_instruction st = .ok none) ∧
    (∀ c1 r1 d, skipWs st.input = some (c1, r1) → hexDigitVal c1 = some d →
      skipWs r1 = none → Disassembler.next_instruction st = .error ()) ∧
    (∀ op st1 i, st.unknown = false →
      Disassembler.next_byte st = .ok (some (op, st1)) →
      0x60 ≤ op → op ≤ 0x7f →
      readChars ((op - 0x5f) * 2) st1.input = .error i →
      Disassembler.next_instruction st = .error ()) := by
  refine ⟨?_, ?_, ?_⟩
  · intro h
    have hb : Disassembler.next_byte st = .ok none := by
      unfold Disassembler.next_byte
      rw [read_error (show readChars 2 st.input = Except.error 0 from
        readChars_eof h)]
    unfold Disassembler.next_instruction
    rw [hb]
  · intro c1 r1 d h1 hd h2
    have hb : Disassembler.next_byte st = .error () := by
      unfold Disassembler.next_byte
      rw [read_error (readChars_one_eof h1 h2)]
    unfold Disassembler.next_instruction
    rw [hb]
  · intro op st1 i hu hb h1 h2 hr
    have hw : Disassembler.next_word (op - 0x5f) st1 = .error () :=
      next_word_error hr
    have hd : Disassembler.decodeOp op st1 = .error () := by
      unfold Disassembler.decodeOp
      rw [opAction_push h1 h2]
      simp [hw]
    obtain ⟨-, -, hueq⟩ := next_byte_ok hb
    unfold Disassembler.next_instruction
    rw [hb]
    simp [hueq, hu, hd]

/-- Witness for `C5_end_of_input`: whitespace-only input ends cleanly,
input `"6"` dies mid-byte, input `"60 0"` dies mid-operand. -/
theorem C5_end_of_input_witness :
    Disassembler.next_instruction (initState (asciiBytes " ")) = .ok none ∧
    Disassembler.next_instruction (initState (asciiBytes "6")) = .error () ∧
    Disassembler.next_instruction (initState (asciiBytes "60 0")) = .error () :=
  ⟨(C5_end_of_input _).1 rfl,
    (C5_end_of_input _).2.1 0x36 [] 6 rfl rfl rfl,
    (C5_end_of_input _).2.2 0x60 ⟨asciiBytes " 0", 1, false⟩ 1 rfl rfl
      (by decide) (by decide) rfl⟩

/-- C2: sticky unknown.  In degraded mode every byte read decodes as
`Unknown` of exactly that byte with no table lookup; and whenever a step
starts degraded or emits an `Unknown`, the successor state is degraded —
so the flag, once set by the first `Unknown`, is never cleared. -/
theorem C2_sticky_unknown (st : DisState) :
    (st.unknown = true → ∀ b st1, Disassembler.next_byte st = .ok (some (b, st1)) →
      Disassembler.next_instruction st = .ok (some (.Unknown b, st1))) ∧
    (∀ i st', Disassembler.next_instruction st = .ok (some (i, st')) →
      (st.unknown = true ∨ ∃ b, i = Instruction.Unknown b) → st'.unknown = true) := by
  constructor
  · intro hu b st1 hb
    obtain ⟨-, -, hueq⟩ := next_byte_ok hb
    unfold Disassembler.next_instruction
    rw [hb]
    simp [hueq, hu]
  · intro i st' h hcase
    unfold Disassembler.next_instruction at h
    cases hb : Disassembler.next_byte st with
    | error e => rw [hb] at h; simp at h
    | ok o =>
      cases o with
      | none => rw [hb] at h; simp at h
      | some p =>
        obtain ⟨op, st1⟩ := p
        rw [hb] at h
        obtain ⟨hop, -, hueq⟩ := next_byte_ok hb
        by_cases hu1 : st1.unknown = true
        · simp only [hu1, if_true] at h
          simp only [Except.ok.injEq, Option.some.injEq, Prod.mk.injEq] at h
          rw [← h.2]
          exact hu1
        · simp only [hu1, Bool.false_eq_true, if_false] at h
          rcases hcase with hc | ⟨b, hc⟩
          · exact absurd (hueq.trans hc) hu1
          cases hda : opAction op with
          | emit i0 =>
            have hd : Disassembler.decodeOp op st1 = .ok (i0, st1) := by
              unfold Disassembler.decodeOp
              rw [hda]
            rw [hd] at h
            simp only [Except.ok.injEq, Option.some.injEq, Prod.mk.injEq] at h
            have hemit := opAction_emit_notUnknown op hop
            rw [hda] at hemit
            rw [show emitNotUnknown (OpAction.emit i0) = notUnknownB i0 from rfl]
              at hemit
            rw [h.1, hc] at hemit
            simp [notUnknownB] at hemit
          | jumpdest =>
            have hd : Disassembler.decodeOp op st1 =
                .ok (.JumpDest (st1.offset - 1), st1) := by
              unfold Disassembler.decodeOp
              rw [hda]
            rw [hd] at h
            simp only [Except.ok.injEq, Option.some.injEq, Prod.mk.injEq] at h
            rw [hc] at h
            exact absurd h.1 (by simp)
          | push size =>
            have hd : Disassembler.decodeOp op st1 =
                (match Disassembler.next_word size st1 with
                | .ok (v, st2) => .ok (.Push size v, st2)
                | .error e => .error e) := by
              unfold Disassembler.decodeOp
              rw [hda]
            rw [hd] at h
            cases hw : Disassembler.next_word size st1 with
            | error e => rw [hw] at h; simp at h
            | ok q =>
              obtain ⟨v, st2⟩ := q
              rw [hw] at h
              simp only [Except.ok.injEq, Option.some.injEq, Prod.mk.injEq] at h
              rw [hc] at h
              exact absurd h.1 (by simp)
          | unknownOp =>
            have hd : Disassembler.decodeOp op st1 =
                .ok (.Unknown op, { st1 with unknown := true }) := by
              unfold Disassembler.decodeOp
              rw [hda]
            rw [hd] at h
            simp only [Except.ok.injEq, Option.some.injEq, Prod.mk.injEq] at h
            rw [← h.2]

/-- Witness for `C2_sticky_unknown`: from a degraded state with input
`"01"`, the byte `0x01` (normally `Add`) decodes as `Unknown(0x01)` and
the successor state is still degraded. -/
theorem C2_sticky_unknown_witness :
    Disassembler.next_instruction ⟨asciiBytes "01", 3, true⟩ =
      .ok (some (.Unknown 1, ⟨[], 4, true⟩)) ∧
    (⟨[], 4, true⟩ : DisState).unknown = true :=
  ⟨(C2_sticky_unknown ⟨asciiBytes "01", 3, true⟩).1 rfl 1 ⟨[], 4, true⟩ rfl,
    (C2_sticky_unknown ⟨asciiBytes "01", 3, true⟩).2 (.Unknown 1) ⟨[], 4, true⟩
      ((C2_sticky_unknown ⟨asciiBytes "01", 3, true⟩).1 rfl 1 ⟨[], 4, true⟩ rfl)
      (Or.inl rfl)⟩

/-! ### Bounds on parsed values -/

theorem readChars_ok_length : ∀ {n : Nat} {s cs r : List Nat},
    readChars n s = .ok (cs, r) → cs.length = n := by
  intro n
  induction n with
  | zero =>
    intro s cs r h
    rw [readChars_zero] at h
    simp only [Except.ok.injEq, Prod.mk.injEq] at h
    rw [← h.1]
    rfl
  | succ k ih =>
    intro s cs r h
    rw [readChars_succ] at h
    split at h
    · exact absurd h (by simp)
    split at h
    case _ cs' s2 hr =>
      simp only [Except.ok.injEq, Prod.mk.injEq] at h
      rw [← h.1]
      simp [ih hr]
    case _ => exact absurd h (by simp)

theorem hexDigitVal_lt {b d : Nat} (h : hexDigitVal b = some d) : d < 16 := by
  unfold hexDigitVal at h
  split_ifs at h with h1 h2 h3
  · injection h with h'
    omega
  · injection h with h'
    omega
  · injection h with h'
    omega

theorem parseHexAux_lt : ∀ (ds : List Nat) (acc v : Nat),
    parseHexAux ds acc = some v → v < (acc + 1) * 16 ^ ds.length := by
  intro ds
  induction ds with
  | nil =>
    intro acc v h
    injection h with h'
    simp only [List.length_nil, pow_zero, Nat.mul_one]
    omega
  | cons b rest ih =>
    intro acc v h
    unfold parseHexAux at h
    split at h
    case _ d hv =>
      have hd := hexDigitVal_lt hv
      have hrec := ih (acc * 16 + d) v h
      have hstep : (acc * 16 + d + 1) * 16 ^ rest.length ≤
          (acc + 1) * 16 ^ (rest.length + 1) := by
        have h1 : acc * 16 + d + 1 ≤ (acc + 1) * 16 := by omega
        calc (acc * 16 + d + 1) * 16 ^ rest.length
            ≤ ((acc + 1) * 16) * 16 ^ rest.length :=
              Nat.mul_le_mul_right _ h1
          _ = (acc + 1) * 16 ^ (rest.length + 1) := by ring
      simp only [List.length_cons]
      omega
    case _ => exact absurd h (by simp)

theorem fromStrRadix16_len_lt {bound : Nat} {s : List Nat} {v : Nat}
    (h : fromStrRadix16 bound s = some v) : v < 16 ^ s.length := by
  unfold fromStrRadix16 at h
  split at h
  · exact absurd h (by simp)
  case _ b rest =>
    split at h
    · exact absurd h (by simp)
    case _ hds =>
      obtain ⟨w, hw, hf⟩ := Option.bind_eq_some.mp h
      have hv : v = w := by
        split at hf
        · exact (Option.some.inj hf).symm
        · exact absurd hf (by simp)
      by_cases hb : (b == 0x2b) = true
      · rw [if_pos hb] at hw
        have hlt := parseHexAux_lt rest 0 w hw
        have hpow : 16 ^ rest.length ≤ 16 ^ (b :: rest).length :=
          Nat.pow_le_pow_right (by norm_num) (by simp)
        omega
      · rw [if_neg hb] at hw
        have hlt := parseHexAux_lt (b :: rest) 0 w hw
        omega

theorem pow16_two_mul (size : Nat) : 16 ^ (size * 2) = 256 ^ size := by
  rw [show (256 : Nat) = 16 ^ 2 from rfl, ← Nat.pow_mul, Nat.mul_comm]

theorem next_word_lt {size : Nat} {st : DisState} {v : Nat} {st1 : DisState}
    (h : Disassembler.next_word size st = .ok (v, st1)) : v < 16 ^ (size * 2) := by
  unfold Disassembler.next_word at h
  split at h
  · exact absurd h (by simp)
  case _ cs st' heq =>
    split at h
    case _ w hp =>
      simp only [Except.ok.injEq, Prod.mk.injEq] at h
      obtain ⟨hrc, -, -⟩ := read_ok heq
      have hlen := readChars_ok_length hrc
      have := fromStrRadix16_len_lt hp
      rw [hlen] at this
      rw [← h.1]
      exact this
    case _ => exact absurd h (by simp)

/-- C9: every instruction produced by `next_instruction` satisfies the
declared payload ranges: `Push(size, value)` has `1 ≤ size ≤ 32` and
`value < 256 ^ size`, `Dup(n)` and `Swap(n)` have `1 ≤ n ≤ 16`, and
`Log(n)` has `n ≤ 4`. -/
theorem C9_decoder_output_wf (st : DisState) (i : Instruction) (st' : DisState)
    (h : Disassembler.next_instruction st = .ok (some (i, st'))) : wfInstr i := by
  unfold Disassembler.next_instruction at h
  cases hb : Disassembler.next_byte st with
  | error e => rw [hb] at h; simp at h
  | ok o =>
    cases o with
    | none => rw [hb] at h; simp at h
    | some p =>
      obtain ⟨op, st1⟩ := p
      rw [hb] at h
      obtain ⟨hop, -, -⟩ := next_byte_ok hb
      by_cases hu1 : st1.unknown = true
      · simp only [hu1, if_true] at h
        simp only [Except.ok.injEq, Option.some.injEq, Prod.mk.injEq] at h
        rw [← h.1]
        trivial
      · simp only [hu1, Bool.false_eq_true, if_false] at h
        cases hda : opAction op with
        | emit i0 =>
          have hwf : wfInstrB i0 = true := by
            have hck := opAction_wf op hop
            unfold opActionWfCheck at hck
            rw [hda] at hck
            exact hck
          have hd : Disassembler.decodeOp op st1 = .ok (i0, st1) := by
            unfold Disassembler.decodeOp
            rw [hda]
          rw [hd] at h
          simp only [Except.ok.injEq, Option.some.injEq, Prod.mk.injEq] at h
          rw [← h.1]
          exact wfInstrB_wf hwf
        | jumpdest =>
          have hd : Disassembler.decodeOp op st1 =
              .ok (.JumpDest (st1.offset - 1), st1) := by
            unfold Disassembler.decodeOp
            rw [hda]
          rw [hd] at h
          simp only [Except.ok.injEq, Option.some.injEq, Prod.mk.injEq] at h
          rw [← h.1]
          trivial
        | push size =>
          have hsz : 1 ≤ size ∧ size ≤ 32 := by
            have hck := opAction_wf op hop
            unfold opActionWfCheck at hck
            rw [hda] at hck
            exact of_decide_eq_true hck
          have hd : Disassembler.decodeOp op st1 =
              (match Disassembler.next_word size st1 with
              | .ok (v, st2) => .ok (.Push size v, st2)
              | .error e => .error e) := by
            unfold Disassembler.decodeOp
            rw [hda]
          rw [hd] at h
          cases hw : Disassembler.next_word size st1 with
          | error e => rw [hw] at h; simp at h
          | ok q =>
            obtain ⟨v, st2⟩ := q
            rw [hw] at h
            simp only [Except.ok.injEq, Option.some.injEq, Prod.mk.injEq] at h
            rw [← h.1]
            refine ⟨hsz.1, hsz.2, ?_⟩
            have hv := next_word_lt hw
            rw [pow16_two_mul] at hv
            exact hv
        | unknownOp =>
          have hd : Disassembler.decodeOp op st1 =
              .ok (.Unknown op, { st1 with unknown := true }) := by
            unfold Disassembler.decodeOp
            rw [hda]
          rw [hd] at h
          simp only [Except.ok.injEq, Option.some.injEq, Prod.mk.injEq] at h
          rw [← h.1]
          trivial

/-- Witness for `C9_decoder_output_wf`: decoding `"60ff"` yields
`Push 1 255`, which satisfies the payload ranges. -/
theorem C9_decoder_output_wf_witness : wfInstr (.Push 1 255) :=
  C9_decoder_output_wf (initState (asciiBytes "60ff")) (.Push 1 255)
    ⟨[], 2, false⟩ rfl

/-! ### Characterization of one decode step, and the offset invariant -/

set_option maxRecDepth 2048 in
theorem opAction_emit_step : ∀ op, op < 256 → emitStepB (opAction op) = true := by
  decide

theorem next_instruction_cases {st : DisState} {i : Instruction} {st' : DisState}
    (h : Disassembler.next_instruction st = .ok (some (i, st'))) :
    ∃ op st1, Disassembler.next_byte st = .ok (some (op, st1)) ∧ op < 256 ∧
      st1.offset = st.offset + 1 ∧ st1.unknown = st.unknown ∧
      ((st1.unknown = true ∧ i = .Unknown op ∧ st' = st1) ∨
        (st1.unknown = false ∧ opAction op = .emit i ∧ st' = st1) ∨
        (st1.unknown = false ∧ opAction op = .jumpdest ∧
          i = .JumpDest (st1.offset - 1) ∧ st' = st1) ∨
        (st1.unknown = false ∧ ∃ size v, opAction op = .push size ∧
          Disassembler.next_word size st1 = .ok (v, st') ∧ i = .Push size v) ∨
        (st1.unknown = false ∧ opAction op = .unknownOp ∧ i = .Unknown op ∧
          st' = { st1 with unknown := true })) := by
  unfold Disassembler.next_instruction at h
  cases hb : Disassembler.next_byte st with
  | error e => rw [hb] at h; simp at h
  | ok o =>
    cases o with
    | none => rw [hb] at h; simp at h
    | some p =>
      obtain ⟨op, st1⟩ := p
      rw [hb] at h
      obtain ⟨hop, hoff, huk⟩ := next_byte_ok hb
      refine ⟨op, st1, rfl, hop, hoff, huk, ?_⟩
      by_cases hu1 : st1.unknown = true
      · simp only [hu1, if_true] at h
        simp only [Except.ok.injEq, Option.some.injEq, Prod.mk.injEq] at h
        exact Or.inl ⟨hu1, h.1.symm, h.2.symm⟩
      · have hu1' : st1.unknown = false := by
          cases hxx : st1.unknown
          · rfl
          · exact absurd hxx hu1
        simp only [hu1, Bool.false_eq_true, if_false] at h
        cases hda : opAction op with
        | emit i0 =>
          have hd : Disassembler.decodeOp op st1 = .ok (i0, st1) := by
            unfold Disassembler.decodeOp
            rw [hda]
          rw [hd] at h
          simp only [Except.ok.injEq, Option.some.injEq, Prod.mk.injEq] at h
          exact Or.inr (Or.inl ⟨hu1', by rw [h.1], h.2.symm⟩)
        | jumpdest =>
          have hd : Disassembler.decodeOp op st1 =
              .ok (.JumpDest (st1.offset - 1), st1) := by
            unfold Disassembler.decodeOp
            rw [hda]
          rw [hd] at h
          simp only [Except.ok.injEq, Option.some.injEq, Prod.mk.injEq] at h
          exact Or.inr (Or.inr (Or.inl ⟨hu1', rfl, h.1.symm, h.2.symm⟩))
        | push size =>
          have hd : Disassembler.decodeOp op st1 =
              (match Disassembler.next_word size st1 with
              | .ok (v, st2) => .ok (.Push size v, st2)
              | .error e => .error e) := by
            unfold Disassembler.decodeOp
            rw [hda]
          rw [hd] at h
          cases hw : Disassembler.next_word size st1 with
          | error e => rw [hw] at h; simp at h
          | ok q =>
            obtain ⟨v, st2⟩ := q
            rw [hw] at h
            simp only [Except.ok.injEq, Option.some.injEq, Prod.mk.injEq] at h
            have hw2 := hw
            rw [h.2] at hw2
            exact Or.inr (Or.inr (Or.inr (Or.inl
              ⟨hu1', size, v, rfl, hw2, h.1.symm⟩)))
        | unknownOp =>
          have hd : Disassembler.decodeOp op st1 =
              .ok (.Unknown op, { st1 with unknown := true }) := by
            unfold Disassembler.decodeOp
            rw [hda]
          rw [hd] at h
          simp only [Except.ok.injEq, Option.some.injEq, Prod.mk.injEq] at h
          exact Or.inr (Or.inr (Or.inr (Or.inr
            ⟨hu1', rfl, h.1.symm, h.2.symm⟩)))

theorem next_instruction_offset {st : DisState} {i : Instruction} {st' : DisState}
    (h : Disassembler.next_instruction st = .ok (some (i, st'))) :
    st'.offset = st.offset + instrLen i := by
  obtain ⟨op, st1, hb, hop, hoff, -, hcases⟩ := next_instruction_cases h
  rcases hcases with ⟨-, hi, hst⟩ | ⟨-, hda, hst⟩ | ⟨-, -, hi, hst⟩ |
    ⟨-, size, v, hda, hw, hi⟩ | ⟨-, -, hi, hst⟩
  · rw [hst, hoff, hi]
    rfl
  · have hstep := opAction_emit_step op hop
    rw [hda] at hstep
    have hstep2 : notJumpdestB i = true ∧ instrLen i = 1 := by
      have hh : (notJumpdestB i && (instrLen i == 1)) = true := hstep
      simp only [Bool.and_eq_true, beq_iff_eq] at hh
      exact hh
    rw [hst, hoff, hstep2.2]
  · rw [hst, hoff, hi]
    rfl
  · have hwoff := (next_word_ok hw).1
    rw [hwoff, hoff, hi]
    show st.offset + 1 + size = st.offset + (1 + size)
    omega
  · rw [hst, hi]
    exact hoff

theorem next_instruction_jumpdest {st : DisState} {off : Nat} {st' : DisState}
    (h : Disassembler.next_instruction st = .ok (some (.JumpDest off, st'))) :
    off = st.offset := by
  obtain ⟨op, st1, hb, hop, hoff, -, hcases⟩ := next_instruction_cases h
  rcases hcases with ⟨-, hi, -⟩ | ⟨-, hda, -⟩ | ⟨-, -, hi, -⟩ |
    ⟨-, size, v, hda, hw, hi⟩ | ⟨-, -, hi, -⟩
  · exact absurd hi (by simp)
  · have hstep := opAction_emit_step op hop
    rw [hda] at hstep
    simp [emitStepB, notJumpdestB] at hstep
  · injection hi with h'
    omega
  · exact absurd hi (by simp)
  · exact absurd hi (by simp)

theorem disassembleFuel_zero (st : DisState) : disassembleFuel 0 st = .ok [] :=
  rfl

theorem disassembleFuel_succ (fuel : Nat) (st : DisState) :
    disassembleFuel (fuel + 1) st =
      match Disassembler.next_instruction st with
      | .error e => .error e
      | .ok none => .ok []
      | .ok (some (i, st1)) =>
        match disassembleFuel fuel st1 with
        | .ok l => .ok (i :: l)
        | .error e => .error e :=
  rfl

theorem jumpdest_offset_invariant :
    ∀ (fuel : Nat) (st : DisState) (l : List Instruction),
      disassembleFuel fuel st = .ok l → ∀ (k off : Nat),
        l[k]? = some (.JumpDest off) →
        off = st.offset + ((l.take k).map instrLen).sum := by
  intro fuel
  induction fuel with
  | zero =>
    intro st l h k off hk
    rw [disassembleFuel_zero] at h
    have hl : l = [] := (Except.ok.inj h).symm
    subst hl
    simp at hk
  | succ f ih =>
    intro st l h k off hk
    rw [disassembleFuel_succ] at h
    split at h
    · exact absurd h (by simp)
    · have hl : l = [] := (Except.ok.inj h).symm
      subst hl
      simp at hk
    case _ i st1 hni =>
      split at h
      case _ l2 hrec =>
        have hl : l = i :: l2 := (Except.ok.inj h).symm
        subst hl
        cases k with
        | zero =>
          simp only [List.getElem?_cons_zero, Option.some.injEq] at hk
          rw [hk] at hni
          have := next_instruction_jumpdest hni
          simpa using this
        | succ k2 =>
          have hoff := next_instruction_offset hni
          have hrest := ih st1 l2 hrec k2 off (by simpa using hk)
          simp only [List.take_succ_cons, List.map_cons, List.sum_cons]
          rw [hrest, hoff]
          omega
      case _ => exact absurd h (by simp)

/-- C3: whenever `0x5b` is decoded, the produced `JumpDest` carries the
zero-based count of bytes (opcode bytes plus push operand bytes) decoded
before it; in particular `60 01 5b` decodes to `Push(1,1)` followed by
`JumpDest 2`. -/
theorem C3_jumpdest_offsets :
    (∀ (input : List Nat) (fuel : Nat) (l : List Instruction) (k off : Nat),
      disassembleFuel fuel (initState input) = .ok l →
      l[k]? = some (.JumpDest off) →
      off = ((l.take k).map instrLen).sum) ∧
    disassemble (asciiBytes "60015b") = .ok [.Push 1 1, .JumpDest 2] := by
  constructor
  · intro input fuel l k off h hk
    have := jumpdest_offset_invariant fuel (initState input) l h k off hk
    simpa [initState] using this
  · rfl

/-- Witness for `C3_jumpdest_offsets`: the `JumpDest` of `"60015b"` is at
index 1 and its offset 2 equals the bytes consumed by the preceding
`Push(1,1)`. -/
theorem C3_jumpdest_offsets_witness :
    disassembleFuel 4 (initState (asciiBytes "60015b")) =
      .ok [.Push 1 1, .JumpDest 2] ∧
    2 = (([Instruction.Push 1 1, Instruction.JumpDest 2].take 1).map instrLen).sum :=
  ⟨rfl, C3_jumpdest_offsets.1 (asciiBytes "60015b") 4
    [.Push 1 1, .JumpDest 2] 1 2 rfl rfl⟩

/-! ### The hex encoding round-trip, for the push claims -/

theorem hexDigitByte_ge (d : Nat) : 48 ≤ hexDigitByte d := by
  unfold hexDigitByte
  split_ifs <;> omega

theorem isAsciiWhitespace_eq_false {b : Nat} (h1 : 48 ≤ b) :
    isAsciiWhitespace b = false := by
  unfold isAsciiWhitespace
  simp only [Bool.or_eq_false_iff, beq_eq_false_iff_ne]
  omega

theorem hexDigitByte_ne_plus (d : Nat) : (hexDigitByte d == 0x2b) = false := by
  have := hexDigitByte_ge d
  simp only [beq_eq_false_iff_ne]
  omega

theorem hexDigitVal_hexDigitByte {d : Nat} (h : d < 16) :
    hexDigitVal (hexDigitByte d) = some d := by
  by_cases hd : d < 10
  · have hv : hexDigitByte d = 48 + d := by
      unfold hexDigitByte
      rw [if_pos hd]
    rw [hv]
    unfold hexDigitVal
    rw [if_pos (by omega : 0x30 ≤ 48 + d ∧ 48 + d ≤ 0x39)]
    congr 1
    omega
  · have hv : hexDigitByte d = 87 + d := by
      unfold hexDigitByte
      rw [if_neg hd]
    rw [hv]
    unfold hexDigitVal
    rw [if_neg (by omega), if_pos (by omega : 0x61 ≤ 87 + d ∧ 87 + d ≤ 0x66)]
    congr 1
    omega

theorem skipWs_cons_not_ws {c : Nat} (h : isAsciiWhitespace c = false)
    (s : List Nat) : skipWs (c :: s) = some (c, s) := by
  simp [skipWs, h]

theorem skipWs_cons_ws {c : Nat} (h : isAsciiWhitespace c = true)
    (s : List Nat) : skipWs (c :: s) = skipWs s := by
  simp [skipWs, h]

theorem readChars_exact : ∀ (l s : List Nat),
    (∀ c ∈ l, isAsciiWhitespace c = false) →
    readChars l.length (l ++ s) = .ok (l, s) := by
  intro l
  induction l with
  | nil => intro s h; rfl
  | cons c l2 ih =>
    intro s h
    have hc := h c (by simp)
    have hih := ih s (fun x hx => h x (by simp [hx]))
    simp only [List.cons_append, List.length_cons, readChars_succ,
      skipWs_cons_not_ws hc, hih]

theorem readChars_short : ∀ (l : List Nat),
    (∀ c ∈ l, isAsciiWhitespace c = false) →
    ∀ n, l.length < n → readChars n l = .error l.length := by
  intro l
  induction l with
  | nil =>
    intro h n hn
    cases n with
    | zero => omega
    | succ m =>
      rw [readChars_succ]
      rfl
  | cons c l2 ih =>
    intro h n hn
    cases n with
    | zero => omega
    | succ m =>
      have hc := h c (by simp)
      have hih := ih (fun x hx => h x (by simp [hx])) m (by simpa using hn)
      simp only [readChars_succ, skipWs_cons_not_ws hc, hih, List.length_cons]

theorem encodeBytes_nil : encodeBytes [] = [] := rfl

theorem encodeBytes_cons (b : Nat) (bs : List Nat) :
    encodeBytes (b :: bs) =
      hexDigitByte (b / 16) :: hexDigitByte (b % 16) :: encodeBytes bs := rfl

theorem encodeBytes_length (bs : List Nat) :
    (encodeBytes bs).length = 2 * bs.length := by
  induction bs with
  | nil => rfl
  | cons b bs ih =>
    simp only [encodeBytes_cons, List.length_cons, ih]
    omega

theorem encodeBytes_not_ws (bs : List Nat) :
    ∀ c ∈ encodeBytes bs, isAsciiWhitespace c = false := by
  induction bs with
  | nil =>
    intro c hc
    simp [encodeBytes_nil] at hc
  | cons b bs ih =>
    intro c hc
    rw [encodeBytes_cons] at hc
    simp only [List.mem_cons] at hc
    rcases hc with rfl | rfl | hc
    · exact isAsciiWhitespace_eq_false (hexDigitByte_ge _)
    · exact isAsciiWhitespace_eq_false (hexDigitByte_ge _)
    · exact ih c hc

theorem parseHexAux_cons (c : Nat) (rest : List Nat) (acc : Nat) :
    parseHexAux (c :: rest) acc =
      match hexDigitVal c with
      | some d => parseHexAux rest (acc * 16 + d)
      | none => none := rfl

theorem parseHexAux_digit {c d : Nat} (h : hexDigitVal c = some d)
    (rest : List Nat) (acc : Nat) :
    parseHexAux (c :: rest) acc = parseHexAux rest (acc * 16 + d) := by
  rw [parseHexAux_cons, h]

theorem parseHexAux_encodeBytes : ∀ (bs : List Nat) (acc : Nat),
    (∀ b ∈ bs, b < 256) →
    parseHexAux (encodeBytes bs) acc =
      some (List.foldl (fun a b => a * 256 + b) acc bs) := by
  intro bs
  induction bs with
  | nil => intro acc h; rfl
  | cons b bs2 ih =>
    intro acc h
    have hb : b < 256 := h b (by simp)
    have hdig1 := @hexDigitVal_hexDigitByte (b / 16) (by omega)
    have hdig2 := @hexDigitVal_hexDigitByte (b % 16) (by omega)
    rw [encodeBytes_cons, parseHexAux_digit hdig1, parseHexAux_digit hdig2]
    rw [show (acc * 16 + b / 16) * 16 + b % 16 = acc * 256 + b by omega]
    rw [ih (acc * 256 + b) (fun x hx => h x (by simp [hx]))]
    rfl

theorem foldl_be_lt : ∀ (bs : List Nat) (acc : Nat), (∀ b ∈ bs, b < 256) →
    List.foldl (fun a b => a * 256 + b) acc bs < (acc + 1) * 256 ^ bs.length := by
  intro bs
  induction bs with
  | nil =>
    intro acc h
    simp only [List.foldl_nil, List.length_nil, pow_zero, Nat.mul_one]
    omega
  | cons b bs2 ih =>
    intro acc h
    have hb : b < 256 := h b (by simp)
    have hrec := ih (acc * 256 + b) (fun x hx => h x (by simp [hx]))
    have hstep : (acc * 256 + b + 1) * 256 ^ bs2.length ≤
        (acc + 1) * 256 ^ (bs2.length + 1) := by
      have hle : acc * 256 + b + 1 ≤ (acc + 1) * 256 := by omega
      calc (acc * 256 + b + 1) * 256 ^ bs2.length
          ≤ ((acc + 1) * 256) * 256 ^ bs2.length := Nat.mul_le_mul_right _ hle
        _ = (acc + 1) * 256 ^ (bs2.length + 1) := by ring
    simp only [List.foldl_cons, List.length_cons]
    omega

theorem beBytesVal_lt {bs : List Nat} (h : ∀ b ∈ bs, b < 256) :
    beBytesVal bs < 256 ^ bs.length := by
  have := foldl_be_lt bs 0 h
  unfold beBytesVal
  omega

theorem fromStrRadix16_encodeBytes {bound : Nat} {bs : List Nat} (hne : bs ≠ [])
    (hbs : ∀ b ∈ bs, b < 256)
    (hlt : List.foldl (fun a b => a * 256 + b) 0 bs < bound) :
    fromStrRadix16 bound (encodeBytes bs) = some (beBytesVal bs) := by
  cases bs with
  | nil => exact absurd rfl hne
  | cons b bs2 =>
    have hp := parseHexAux_encodeBytes (b :: bs2) 0 hbs
    rw [encodeBytes_cons] at hp
    rw [encodeBytes_cons, fromStrRadix16_cons]
    simp only [hexDigitByte_ne_plus, Bool.false_eq_true, if_false, hp,
      Option.some_bind]
    rw [if_pos hlt]
    rfl

theorem next_byte_encode {op : Nat} (hop : op < 256) {rest : List Nat}
    {st : DisState} (hst : st.input = encodeByte op ++ rest) :
    Disassembler.next_byte st =
      .ok (some (op, ⟨rest, st.offset + 1, st.unknown⟩)) := by
  have hws : ∀ c ∈ encodeByte op, isAsciiWhitespace c = false := by
    intro c hc
    simp only [encodeByte, List.mem_cons, List.not_mem_nil, or_false] at hc
    rcases hc with rfl | rfl
    · exact isAsciiWhitespace_eq_false (hexDigitByte_ge _)
    · exact isAsciiWhitespace_eq_false (hexDigitByte_ge _)
  have hrc : readChars 2 st.input = .ok (encodeByte op, rest) := by
    rw [hst]
    exact readChars_exact (encodeByte op) rest hws
  have hread : Disassembler.read 2 st =
      .ok (encodeByte op, ⟨rest, st.offset + 1, st.unknown⟩) := by
    unfold Disassembler.read
    rw [hrc]
  have hv : fromStrRadix16 256 (encodeByte op) = some op := by
    have he : encodeByte op = encodeBytes [op] := rfl
    rw [he]
    rw [fromStrRadix16_encodeBytes (by simp)
      (by intro b hb; simp at hb; omega)
      (by simpa using hop)]
    have hval : beBytesVal [op] = op := by
      unfold beBytesVal
      simp
    rw [hval]
  unfold Disassembler.next_byte
  rw [hread]
  show (match fromStrRadix16 256 (encodeByte op) with
    | some v => Except.ok (some (v, (⟨rest, st.offset + 1, st.unknown⟩ : DisState)))
    | none => Except.error ()) =
    Except.ok (some (op, ⟨rest, st.offset + 1, st.unknown⟩))
  rw [hv]

theorem next_word_encode {size : Nat} {st : DisState} {bs : List Nat}
    (hst : st.input = encodeBytes bs) (hlen : bs.length = size) (h0 : 0 < size)
    (h32 : size ≤ 32) (hbs : ∀ b ∈ bs, b < 256) :
    Disassembler.next_word size st =
      .ok (beBytesVal bs, ⟨[], st.offset + size, st.unknown⟩) := by
  have hdiv : size * 2 / 2 = size := by omega
  have hrc : readChars (size * 2) st.input = .ok (encodeBytes bs, []) := by
    rw [hst]
    have hx := readChars_exact (encodeBytes bs) [] (encodeBytes_not_ws bs)
    rw [List.append_nil, encodeBytes_length, hlen] at hx
    rw [show size * 2 = 2 * size by omega]
    exact hx
  have hread : Disassembler.read (size * 2) st =
      .ok (encodeBytes bs, ⟨[], st.offset + size, st.unknown⟩) := by
    unfold Disassembler.read
    rw [hrc, hdiv]
  have hne : bs ≠ [] := by
    intro hx
    rw [hx] at hlen
    simp at hlen
    omega
  have hbound : List.foldl (fun a b => a * 256 + b) 0 bs < 2 ^ 256 := by
    have h1 := beBytesVal_lt hbs
    unfold beBytesVal at h1
    have h2 : (256 : Nat) ^ bs.length ≤ 256 ^ 32 :=
      Nat.pow_le_pow_right (by norm_num) (by omega)
    have h3 : (256 : Nat) ^ 32 = 2 ^ 256 := by norm_num
    omega
  have hv := @fromStrRadix16_encodeBytes (2 ^ 256) bs hne hbs hbound
  unfold Disassembler.next_word
  rw [hread]
  show (match fromStrRadix16 (2 ^ 256) (encodeBytes bs) with
    | some v => Except.ok (v, (⟨[], st.offset + size, st.unknown⟩ : DisState))
    | none => Except.error ()) =
    Except.ok (beBytesVal bs, ⟨[], st.offset + size, st.unknown⟩)
  rw [hv]

/-- C4: decoding opcode `0x5f + N` (`1 ≤ N ≤ 32`) followed by exactly N
hex-encoded bytes yields `Push(N, value)` with `value` the big-endian
interpretation of those bytes; with fewer than N operand bytes before
end-of-input, `next_instruction` is a decode error, not end-of-sequence. -/
theorem C4_push_decoding (N : Nat) (h1 : 1 ≤ N) (h2 : N ≤ 32) :
    (∀ bs : List Nat, bs.length = N → (∀ b ∈ bs, b < 256) →
      Disassembler.next_instruction (initState (encodeBytes ((0x5f + N) :: bs))) =
        .ok (some (.Push N (beBytesVal bs), ⟨[], 1 + N, false⟩))) ∧
    (∀ bs : List Nat, bs.length < N → (∀ b ∈ bs, b < 256) →
      Disassembler.next_instruction (initState (encodeBytes ((0x5f + N) :: bs))) =
        .error ()) := by
  have hopge : 0x60 ≤ 0x5f + N := by omega
  have hople : 0x5f + N ≤ 0x7f := by omega
  have hop256 : 0x5f + N < 256 := by omega
  have hda : opAction (0x5f + N) = .push N := by
    rw [opAction_push hopge hople, show 0x5f + N - 0x5f = N by omega]
  constructor
  · intro bs hlen hbs
    have hb : Disassembler.next_byte (initState (encodeBytes ((0x5f + N) :: bs))) =
        .ok (some (0x5f + N, ⟨encodeBytes bs, 1, false⟩)) :=
      next_byte_encode hop256 rfl
    have hw : Disassembler.next_word N (⟨encodeBytes bs, 1, false⟩ : DisState) =
        .ok (beBytesVal bs, ⟨[], 1 + N, false⟩) :=
      next_word_encode rfl hlen (by omega) (by omega) hbs
    have hd : Disassembler.decodeOp (0x5f + N) ⟨encodeBytes bs, 1, false⟩ =
        .ok (.Push N (beBytesVal bs), ⟨[], 1 + N, false⟩) := by
      unfold Disassembler.decodeOp
      rw [hda]
      show (match Disassembler.next_word N (⟨encodeBytes bs, 1, false⟩ : DisState) with
        | .ok (v, st1) => Except.ok (Instruction.Push N v, st1)
        | .error e => Except.error e) =
        Except.ok (Instruction.Push N (beBytesVal bs), ⟨[], 1 + N, false⟩)
      rw [hw]
    unfold Disassembler.next_instruction
    rw [hb]
    simp [hd]
  · intro bs hlen hbs
    have hb : Disassembler.next_byte (initState (encodeBytes ((0x5f + N) :: bs))) =
        .ok (some (0x5f + N, ⟨encodeBytes bs, 1, false⟩)) :=
      next_byte_encode hop256 rfl
    have hshort := readChars_short (encodeBytes bs) (encodeBytes_not_ws bs)
      (N * 2) (by rw [encodeBytes_length]; omega)
    have hw : Disassembler.next_word N (⟨encodeBytes bs, 1, false⟩ : DisState) =
        .error () := next_word_error hshort
    have hd : Disassembler.decodeOp (0x5f + N) ⟨encodeBytes bs, 1, false⟩ =
        .error () := by
      unfold Disassembler.decodeOp
      rw [hda]
      show (match Disassembler.next_word N (⟨encodeBytes bs, 1, false⟩ : DisState) with
        | .ok (v, st1) => Except.ok (Instruction.Push N v, st1)
        | .error e => Except.error e) =
        Except.error ()
      rw [hw]
    unfold Disassembler.next_instruction
    rw [hb]
    simp [hd]

/-- Witness for `C4_push_decoding`: `"61abcd"` decodes to `Push(2, 0xabcd)`
and the truncated `"61ab"` is a decode error. -/
theorem C4_push_decoding_witness :
    Disassembler.next_instruction (initState (asciiBytes "61abcd")) =
      .ok (some (.Push 2 0xabcd, ⟨[], 3, false⟩)) ∧
    Disassembler.next_instruction (initState (asciiBytes "61ab")) = .error () :=
  ⟨(C4_push_decoding 2 (by decide) (by decide)).1 [0xab, 0xcd] rfl
      (by decide),
    (C4_push_decoding 2 (by decide) (by decide)).2 [0xab] (by decide)
      (by decide)⟩

/-! ### Invariance of decoding under whitespace and hex-letter case -/

theorem isAsciiWhitespace_lowerHex (b : Nat) :
    isAsciiWhitespace (lowerHex b) = isAsciiWhitespace b := by
  unfold lowerHex
  split_ifs with h
  · rw [isAsciiWhitespace_eq_false (by omega), isAsciiWhitespace_eq_false (by omega)]
  · rfl

theorem hexDigitVal_upper {b : Nat} (h1 : 0x41 ≤ b) (h2 : b ≤ 0x46) :
    hexDigitVal b = some (b - 0x37) := by
  unfold hexDigitVal
  rw [if_neg (by omega), if_neg (by omega), if_pos (by omega : 0x41 ≤ b ∧ b ≤ 0x46)]

theorem hexDigitVal_lower_letter {b : Nat} (h1 : 0x61 ≤ b) (h2 : b ≤ 0x66) :
    hexDigitVal b = some (b - 0x57) := by
  unfold hexDigitVal
  rw [if_neg (by omega), if_pos (by omega : 0x61 ≤ b ∧ b ≤ 0x66)]

theorem hexDigitVal_lowerHex (b : Nat) :
    hexDigitVal (lowerHex b) = hexDigitVal b := by
  by_cases h : 0x41 ≤ b ∧ b ≤ 0x46
  · have hl : lowerHex b = b + 32 := by
      unfold lowerHex
      rw [if_pos h]
    rw [hl, hexDigitVal_lower_letter (by omega) (by omega),
      hexDigitVal_upper h.1 h.2]
    congr 1
  · have hl : lowerHex b = b := by
      unfold lowerHex
      rw [if_neg h]
    rw [hl]

theorem lowerHex_plus_iff {b : Nat} : lowerHex b = 0x2b ↔ b = 0x2b := by
  unfold lowerHex
  split_ifs with h <;> omega

theorem canon_nil : canon [] = [] := rfl

theorem canon_cons_ws {b : Nat} (h : isAsciiWhitespace b = true) (s : List Nat) :
    canon (b :: s) = canon s := by
  simp [canon, h]

theorem canon_cons_not_ws {b : Nat} (h : isAsciiWhitespace b = false)
    (s : List Nat) : canon (b :: s) = lowerHex b :: canon s := by
  simp [canon, h]

theorem skipWs_none_iff : ∀ {s : List Nat}, skipWs s = none ↔ canon s = [] := by
  intro s
  induction s with
  | nil => simp [skipWs, canon_nil]
  | cons b s2 ih =>
    cases hb : isAsciiWhitespace b
    · rw [skipWs_cons_not_ws hb, canon_cons_not_ws hb]
      simp
    · rw [skipWs_cons_ws hb, canon_cons_ws hb]
      exact ih

theorem skipWs_some_canon : ∀ {s : List Nat} {c : Nat} {r : List Nat},
    skipWs s = some (c, r) → canon s = lowerHex c :: canon r := by
  intro s
  induction s with
  | nil =>
    intro c r h
    simp [skipWs] at h
  | cons b s2 ih =>
    intro c r h
    cases hb : isAsciiWhitespace b
    · rw [skipWs_cons_not_ws hb] at h
      simp only [Option.some.injEq, Prod.mk.injEq] at h
      rw [canon_cons_not_ws hb, h.1, h.2]
    · rw [skipWs_cons_ws hb] at h
      rw [canon_cons_ws hb]
      exact ih h

theorem skipWs_rel {s1 s2 : List Nat} (h : canon s1 = canon s2) :
    (skipWs s1 = none ∧ skipWs s2 = none) ∨
    (∃ c1 r1 c2 r2, skipWs s1 = some (c1, r1) ∧ skipWs s2 = some (c2, r2) ∧
      lowerHex c1 = lowerHex c2 ∧ canon r1 = canon r2) := by
  cases h1 : skipWs s1 with
  | none =>
    left
    refine ⟨rfl, ?_⟩
    rw [skipWs_none_iff, ← h]
    exact skipWs_none_iff.mp h1
  | some p =>
    obtain ⟨c1, r1⟩ := p
    right
    have hc1 := skipWs_some_canon h1
    cases h2 : skipWs s2 with
    | none =>
      have hx := skipWs_none_iff.mp h2
      rw [← h, hc1] at hx
      simp at hx
    | some q =>
      obtain ⟨c2, r2⟩ := q
      have hc2 := skipWs_some_canon h2
      rw [hc1, hc2] at h
      simp only [List.cons.injEq] at h
      exact ⟨c1, r1, c2, r2, rfl, rfl, h.1, h.2⟩

theorem readChars_congr : ∀ (n : Nat) {s1 s2 : List Nat}, canon s1 = canon s2 →
    (∀ i, readChars n s1 = .error i → readChars n s2 = .error i) ∧
    (∀ cs1 r1, readChars n s1 = .ok (cs1, r1) → ∃ cs2 r2,
      readChars n s2 = .ok (cs2, r2) ∧ cs1.map lowerHex = cs2.map lowerHex ∧
      canon r1 = canon r2) := by
  intro n
  induction n with
  | zero =>
    intro s1 s2 h
    constructor
    · intro i hi
      rw [readChars_zero] at hi
      exact absurd hi (by simp)
    · intro cs1 r1 hok
      rw [readChars_zero] at hok
      simp only [Except.ok.injEq, Prod.mk.injEq] at hok
      refine ⟨[], s2, rfl, ?_, ?_⟩
      · rw [← hok.1]
      · rw [← hok.2]
        exact h
  | succ k ih =>
    intro s1 s2 h
    rcases skipWs_rel h with ⟨hn1, hn2⟩ | ⟨c1, r1, c2, r2, hs1, hs2, hlc, hcr⟩
    · constructor
      · intro i hi
        rw [readChars_eof hn1] at hi
        have hi0 : (0 : Nat) = i := by simpa using hi
        rw [← hi0]
        exact readChars_eof hn2
      · intro cs1 r1 hok
        rw [readChars_eof hn1] at hok
        exact absurd hok (by simp)
    · obtain ⟨iherr, ihok⟩ := ih hcr
      constructor
      · intro i hi
        simp only [readChars_succ, hs1] at hi
        cases hr1 : readChars k r1 with
        | ok p =>
          rw [hr1] at hi
          simp at hi
        | error j =>
          rw [hr1] at hi
          have hij : j + 1 = i := by simpa using hi
          have h2 := iherr j hr1
          simp only [readChars_succ, hs2, h2]
          rw [hij]
      · intro cs1 r1' hok
        simp only [readChars_succ, hs1] at hok
        cases hr1 : readChars k r1 with
        | error j =>
          rw [hr1] at hok
          simp at hok
        | ok p =>
          obtain ⟨cs1', s1'⟩ := p
          simp only [hr1, Except.ok.injEq, Prod.mk.injEq] at hok
          obtain ⟨cs2', s2', hok2, hmap, hcan⟩ := ihok cs1' s1' hr1
          refine ⟨c2 :: cs2', s2', ?_, ?_, ?_⟩
          · simp only [readChars_succ, hs2, hok2]
          · rw [← hok.1]
            simp only [List.map_cons, hlc, hmap]
          · rw [← hok.2]
            exact hcan

theorem parseHexAux_map_congr : ∀ (cs1 cs2 : List Nat) (acc : Nat),
    cs1.map lowerHex = cs2.map lowerHex →
    parseHexAux cs1 acc = parseHexAux cs2 acc := by
  intro cs1
  induction cs1 with
  | nil =>
    intro cs2 acc h
    cases cs2 with
    | nil => rfl
    | cons b bs => simp at h
  | cons a as ih =>
    intro cs2 acc h
    cases cs2 with
    | nil => simp at h
    | cons b bs =>
      simp only [List.map_cons, List.cons.injEq] at h
      have hd : hexDigitVal a = hexDigitVal b := by
        rw [← hexDigitVal_lowerHex a, h.1, hexDigitVal_lowerHex b]
      rw [parseHexAux_cons, parseHexAux_cons, hd]
      cases hv : hexDigitVal b with
      | none => rfl
      | some d => exact ih bs (acc * 16 + d) h.2

theorem fromStrRadix16_map_congr {bound : Nat} : ∀ {cs1 cs2 : List Nat},
    cs1.map lowerHex = cs2.map lowerHex →
    fromStrRadix16 bound cs1 = fromStrRadix16 bound cs2 := by
  intro cs1 cs2 h
  cases cs1 with
  | nil =>
    cases cs2 with
    | nil => rfl
    | cons b bs => simp at h
  | cons a as =>
    cases cs2 with
    | nil => simp at h
    | cons b bs =>
      simp only [List.map_cons, List.cons.injEq] at h
      have hplus : (a == 0x2b) = (b == 0x2b) := by
        by_cases ha : a = 0x2b
        · have hlb : lowerHex b = 0x2b := by
            rw [← h.1, ha]
            decide
          have hb := lowerHex_plus_iff.mp hlb
          rw [ha, hb]
        · have hb : ¬ b = 0x2b := by
            intro hbx
            apply ha
            apply lowerHex_plus_iff.mp
            rw [h.1, hbx]
            decide
          simp [ha, hb]
      rw [fromStrRadix16_cons, fromStrRadix16_cons, hplus]
      cases hbeq : (b == 0x2b) with
      | true =>
        simp only [hbeq, if_true]
        cases has : as with
        | nil =>
          cases hbs : bs with
          | nil => rfl
          | cons b2 bs2 =>
            rw [has, hbs] at h
            simp at h
        | cons a2 as2 =>
          cases hbs : bs with
          | nil =>
            rw [has, hbs] at h
            simp at h
          | cons b2 bs2 =>
            rw [has, hbs] at h
            show (parseHexAux (a2 :: as2) 0).bind
                (fun v => if v < bound then some v else none) =
              (parseHexAux (b2 :: bs2) 0).bind
                (fun v => if v < bound then some v else none)
            rw [parseHexAux_map_congr (a2 :: as2) (b2 :: bs2) 0 h.2]
      | false =>
        simp only [hbeq, Bool.false_eq_true, if_false]
        show (parseHexAux (a :: as) 0).bind
            (fun v => if v < bound then some v else none) =
          (parseHexAux (b :: bs) 0).bind
            (fun v => if v < bound then some v else none)
        rw [parseHexAux_map_congr (a :: as) (b :: bs) 0
          (by simp only [List.map_cons, h.1, h.2])]

theorem read_congr {count : Nat} {t1 t2 : DisState} (h : StRel t1 t2) :
    (∀ i, Disassembler.read count t1 = .error i →
      Disassembler.read count t2 = .error i) ∧
    (∀ cs1 t1', Disassembler.read count t1 = .ok (cs1, t1') → ∃ cs2 t2',
      Disassembler.read count t2 = .ok (cs2, t2') ∧
      cs1.map lowerHex = cs2.map lowerHex ∧ StRel t1' t2') := by
  obtain ⟨hin, hoff, hunk⟩ := h
  obtain ⟨rerr, rok⟩ := readChars_congr count hin
  constructor
  · intro i hi
    unfold Disassembler.read at hi ⊢
    cases hr : readChars count t1.input with
    | ok p =>
      rw [hr] at hi
      simp at hi
    | error j =>
      rw [hr] at hi
      have hj : j = i := by simpa using hi
      rw [rerr j hr, hj]
  · intro cs1 t1' hok
    unfold Disassembler.read at hok ⊢
    cases hr : readChars count t1.input with
    | error j =>
      rw [hr] at hok
      simp at hok
    | ok p =>
      obtain ⟨cs1', rest1⟩ := p
      rw [hr] at hok
      simp only [Except.ok.injEq, Prod.mk.injEq] at hok
      obtain ⟨cs2', rest2, hok2, hmap, hcan⟩ := rok cs1' rest1 hr
      refine ⟨cs2', ⟨rest2, t2.offset + count / 2, t2.unknown⟩, ?_, ?_, ?_⟩
      · rw [hok2]
      · rw [← hok.1]
        exact hmap
      · rw [← hok.2]
        exact ⟨hcan, by rw [hoff], by rw [hunk]⟩

theorem next_byte_congr {t1 t2 : DisState} (h : StRel t1 t2) :
    (∀ e, Disassembler.next_byte t1 = .error e →
      Disassembler.next_byte t2 = .error e) ∧
    (Disassembler.next_byte t1 = .ok none →
      Disassembler.next_byte t2 = .ok none) ∧
    (∀ op t1', Disassembler.next_byte t1 = .ok (some (op, t1')) →
      ∃ t2', Disassembler.next_byte t2 = .ok (some (op, t2')) ∧ StRel t1' t2') := by
  obtain ⟨rerr, rok⟩ := @read_congr 2 t1 t2 h
  refine ⟨?_, ?_, ?_⟩
  · intro e he
    unfold Disassembler.next_byte at he ⊢
    cases hr : Disassembler.read 2 t1 with
    | error j =>
      cases j with
      | zero =>
        rw [hr] at he
        simp at he
      | succ j2 =>
        rw [rerr (j2 + 1) hr]
        rfl
    | ok p =>
      obtain ⟨cs1, t1'⟩ := p
      simp only [hr] at he
      obtain ⟨cs2, t2', hok2, hmap, hrel⟩ := rok cs1 t1' hr
      rw [hok2]
      cases hp : fromStrRadix16 256 cs1 with
      | some v =>
        rw [hp] at he
        simp at he
      | none =>
        have hp2 : fromStrRadix16 256 cs2 = none := by
          rw [← fromStrRadix16_map_congr hmap]
          exact hp
        show (match fromStrRadix16 256 cs2 with
          | some v => Except.ok (some (v, t2'))
          | none => Except.error ()) = Except.error e
        rw [hp2]
  · intro he
    unfold Disassembler.next_byte at he ⊢
    cases hr : Disassembler.read 2 t1 with
    | error j =>
      cases j with
      | zero => rw [rerr 0 hr]
      | succ j2 =>
        rw [hr] at he
        simp at he
    | ok p =>
      obtain ⟨cs1, t1'⟩ := p
      simp only [hr] at he
      cases hp : fromStrRadix16 256 cs1 with
      | some v =>
        rw [hp] at he
        simp at he
      | none =>
        rw [hp] at he
        simp at he
  · intro op t1' he
    unfold Disassembler.next_byte at he ⊢
    cases hr : Disassembler.read 2 t1 with
    | error j =>
      cases j with
      | zero =>
        rw [hr] at he
        simp at he
      | succ j2 =>
        rw [hr] at he
        simp at he
    | ok p =>
      obtain ⟨cs1, t1x⟩ := p
      simp only [hr] at he
      obtain ⟨cs2, t2x, hok2, hmap, hrel⟩ := rok cs1 t1x hr
      cases hp : fromStrRadix16 256 cs1 with
      | none =>
        rw [hp] at he
        simp at he
      | some v =>
        rw [hp] at he
        simp only [Except.ok.injEq, Option.some.injEq, Prod.mk.injEq] at he
        have hp2 : fromStrRadix16 256 cs2 = some v := by
          rw [← fromStrRadix16_map_congr hmap]
          exact hp
        refine ⟨t2x, ?_, ?_⟩
        · rw [hok2]
          show (match fromStrRadix16 256 cs2 with
            | some w => Except.ok (some (w, t2x))
            | none => Except.error ()) = Except.ok (some (op, t2x))
          rw [hp2, he.1]
        · rw [← he.2]
          exact hrel

theorem next_word_congr {size : Nat} {t1 t2 : DisState} (h : StRel t1 t2) :
    (∀ e, Disassembler.next_word size t1 = .error e →
      Disassembler.next_word size t2 = .error e) ∧
    (∀ v t1', Disassembler.next_word size t1 = .ok (v, t1') →
      ∃ t2', Disassembler.next_word size t2 = .ok (v, t2') ∧ StRel t1' t2') := by
  obtain ⟨rerr, rok⟩ := @read_congr (size * 2) t1 t2 h
  constructor
  · intro e he
    unfold Disassembler.next_word at he ⊢
    cases hr : Disassembler.read (size * 2) t1 with
    | error j =>
      rw [rerr j hr]
    | ok p =>
      obtain ⟨cs1, t1'⟩ := p
      simp only [hr] at he
      obtain ⟨cs2, t2', hok2, hmap, hrel⟩ := rok cs1 t1' hr
      rw [hok2]
      cases hp : fromStrRadix16 (2 ^ 256) cs1 with
      | some v =>
        rw [hp] at he
        simp at he
      | none =>
        have hp2 : fromStrRadix16 (2 ^ 256) cs2 = none := by
          rw [← fromStrRadix16_map_congr hmap]
          exact hp
        show (match fromStrRadix16 (2 ^ 256) cs2 with
          | some v => Except.ok (v, t2')
          | none => Except.error ()) = Except.error e
        rw [hp2]
  · intro v t1' he
    unfold Disassembler.next_word at he ⊢
    cases hr : Disassembler.read (size * 2) t1 with
    | error j =>
      rw [hr] at he
      simp at he
    | ok p =>
      obtain ⟨cs1, t1x⟩ := p
      simp only [hr] at he
      obtain ⟨cs2, t2x, hok2, hmap, hrel⟩ := rok cs1 t1x hr
      cases hp : fromStrRadix16 (2 ^ 256) cs1 with
      | none =>
        rw [hp] at he
        simp at he
      | some w =>
        rw [hp] at he
        simp only [Except.ok.injEq, Prod.mk.injEq] at he
        have hp2 : fromStrRadix16 (2 ^ 256) cs2 = some w := by
          rw [← fromStrRadix16_map_congr hmap]
          exact hp
        refine ⟨t2x, ?_, ?_⟩
        · rw [hok2]
          show (match fromStrRadix16 (2 ^ 256) cs2 with
            | some w2 => Except.ok (w2, t2x)
            | none => Except.error ()) = Except.ok (v, t2x)
          rw [hp2, he.1]
        · rw [← he.2]
          exact hrel

theorem decodeOp_congr {op : Nat} {t1 t2 : DisState} (h : StRel t1 t2) :
    (∀ e, Disassembler.decodeOp op t1 = .error e →
      Disassembler.decodeOp op t2 = .error e) ∧
    (∀ i t1', Disassembler.decodeOp op t1 = .ok (i, t1') →
      ∃ t2', Disassembler.decodeOp op t2 = .ok (i, t2') ∧ StRel t1' t2') := by
  obtain ⟨werr, wok⟩ := @next_word_congr (op - 0x5f) t1 t2 h
  obtain ⟨hin, hoff, hunk⟩ := h
  constructor
  · intro e he
    unfold Disassembler.decodeOp at he ⊢
    cases hda : opAction op with
    | emit i0 =>
      rw [hda] at he
      simp at he
    | jumpdest =>
      rw [hda] at he
      simp at he
    | push size =>
      simp only [hda] at he
      cases hw : Disassembler.next_word size t1 with
      | ok q =>
        rw [hw] at he
        simp at he
      | error e2 =>
        rw [hw] at he
        have he2 : e2 = e := rfl
        obtain ⟨werr2, -⟩ := @next_word_congr size t1 t2 ⟨hin, hoff, hunk⟩
        show (match Disassembler.next_word size t2 with
          | .ok (v, st1) => Except.ok (Instruction.Push size v, st1)
          | .error e3 => Except.error e3) = Except.error e
        rw [werr2 e2 hw, he2]
    | unknownOp =>
      rw [hda] at he
      simp at he
  · intro i t1' he
    unfold Disassembler.decodeOp at he ⊢
    cases hda : opAction op with
    | emit i0 =>
      simp only [hda, Except.ok.injEq, Prod.mk.injEq] at he
      refine ⟨t2, ?_, ?_⟩
      · rw [he.1]
      · rw [← he.2]
        exact ⟨hin, hoff, hunk⟩
    | jumpdest =>
      simp only [hda, Except.ok.injEq, Prod.mk.injEq] at he
      refine ⟨t2, ?_, ?_⟩
      · rw [← he.1, hoff]
      · rw [← he.2]
        exact ⟨hin, hoff, hunk⟩
    | push size =>
      simp only [hda] at he
      cases hw : Disassembler.next_word size t1 with
      | error e2 =>
        rw [hw] at he
        simp at he
      | ok q =>
        obtain ⟨v, t1x⟩ := q
        rw [hw] at he
        simp only [Except.ok.injEq, Prod.mk.injEq] at he
        obtain ⟨-, wok2⟩ := @next_word_congr size t1 t2 ⟨hin, hoff, hunk⟩
        obtain ⟨t2x, hw2, hrel2⟩ := wok2 v t1x hw
        refine ⟨t2x, ?_, ?_⟩
        · show (match Disassembler.next_word size t2 with
            | .ok (w, st1) => Except.ok (Instruction.Push size w, st1)
            | .error e3 => Except.error e3) = Except.ok (i, t2x)
          rw [hw2]
          show Except.ok (Instruction.Push size v, t2x) = Except.ok (i, t2x)
          rw [he.1]
        · rw [← he.2]
          exact hrel2
    | unknownOp =>
      simp only [hda, Except.ok.injEq, Prod.mk.injEq] at he
      refine ⟨⟨t2.input, t2.offset, true⟩, ?_, ?_⟩
      · rw [he.1]
      · rw [← he.2]
        exact ⟨hin, hoff, rfl⟩

theorem next_instruction_congr {t1 t2 : DisState} (h : StRel t1 t2) :
    (∀ e, Disassembler.next_instruction t1 = .error e →
      Disassembler.next_instruction t2 = .error e) ∧
    (Disassembler.next_instruction t1 = .ok none →
      Disassembler.next_instruction t2 = .ok none) ∧
    (∀ i t1', Disassembler.next_instruction t1 = .ok (some (i, t1')) →
      ∃ t2', Disassembler.next_instruction t2 = .ok (some (i, t2')) ∧
        StRel t1' t2') := by
  obtain ⟨berr, bnone, bok⟩ := next_byte_congr h
  refine ⟨?_, ?_, ?_⟩
  · intro e he
    unfold Disassembler.next_instruction at he ⊢
    cases hb : Disassembler.next_byte t1 with
    | error e2 =>
      rw [berr e2 hb]
    | ok o =>
      cases o with
      | none =>
        rw [hb] at he
        simp at he
      | some p =>
        obtain ⟨op, t1x⟩ := p
        simp only [hb] at he
        obtain ⟨t2x, hb2, hrel⟩ := bok op t1x hb
        simp only [hb2]
        have hueq : t1x.unknown = t2x.unknown := hrel.2.2
        by_cases hu : t1x.unknown = true
        · rw [if_pos hu] at he
          simp at he
        · rw [if_neg hu] at he
          rw [if_neg (by rw [← hueq]; exact hu)]
          obtain ⟨derr, -⟩ := @decodeOp_congr op t1x t2x hrel
          cases hd : Disassembler.decodeOp op t1x with
          | ok q =>
            rw [hd] at he
            simp at he
          | error e2 =>
            rw [hd] at he
            have he2 : e2 = e := rfl
            show (match Disassembler.decodeOp op t2x with
              | .ok (i, st2) => Except.ok (some (i, st2))
              | .error e3 => Except.error e3) = Except.error e
            rw [derr e2 hd, he2]
  · intro he
    unfold Disassembler.next_instruction at he ⊢
    cases hb : Disassembler.next_byte t1 with
    | error e2 =>
      rw [hb] at he
      simp at he
    | ok o =>
      cases o with
      | none => rw [bnone hb]
      | some p =>
        obtain ⟨op, t1x⟩ := p
        simp only [hb] at he
        by_cases hu : t1x.unknown = true
        · rw [if_pos hu] at he
          simp at he
        · rw [if_neg hu] at he
          cases hd : Disassembler.decodeOp op t1x with
          | ok q =>
            rw [hd] at he
            simp at he
          | error e2 =>
            rw [hd] at he
            simp at he
  · intro i t1' he
    unfold Disassembler.next_instruction at he ⊢
    cases hb : Disassembler.next_byte t1 with
    | error e2 =>
      rw [hb] at he
      simp at he
    | ok o =>
      cases o with
      | none =>
        rw [hb] at he
        simp at he
      | some p =>
        obtain ⟨op, t1x⟩ := p
        simp only [hb] at he
        obtain ⟨t2x, hb2, hrel⟩ := bok op t1x hb
        simp only [hb2]
        have hueq : t1x.unknown = t2x.unknown := hrel.2.2
        by_cases hu : t1x.unknown = true
        · rw [if_pos hu] at he
          simp only [Except.ok.injEq, Option.some.injEq, Prod.mk.injEq] at he
          rw [if_pos (by rw [← hueq]; exact hu)]
          refine ⟨t2x, ?_, ?_⟩
          · rw [he.1]
          · rw [← he.2]
            exact hrel
        · rw [if_neg hu] at he
          rw [if_neg (by rw [← hueq]; exact hu)]
          obtain ⟨-, dok⟩ := @decodeOp_congr op t1x t2x hrel
          cases hd : Disassembler.decodeOp op t1x with
          | error e2 =>
            rw [hd] at he
            simp at he
          | ok q =>
            obtain ⟨i0, t1y⟩ := q
            rw [hd] at he
            simp only [Except.ok.injEq, Option.some.injEq, Prod.mk.injEq] at he
            obtain ⟨t2y, hd2, hrel2⟩ := dok i0 t1y hd
            refine ⟨t2y, ?_, ?_⟩
            · show (match Disassembler.decodeOp op t2x with
                | .ok (i2, st2) => Except.ok (some (i2, st2))
                | .error e3 => Except.error e3) = Except.ok (some (i, t2y))
              rw [hd2, he.1]
            · rw [← he.2]
              exact hrel2

theorem disassembleFuel_congr : ∀ (fuel : Nat) {t1 t2 : DisState},
    StRel t1 t2 → disassembleFuel fuel t1 = disassembleFuel fuel t2 := by
  intro fuel
  induction fuel with
  | zero => intro t1 t2 h; rfl
  | succ f ih =>
    intro t1 t2 h
    obtain ⟨nerr, nnone, nok⟩ := next_instruction_congr h
    rw [disassembleFuel_succ, disassembleFuel_succ]
    cases hn : Disassembler.next_instruction t1 with
    | error e => rw [nerr e hn]
    | ok o =>
      cases o with
      | none => rw [nnone hn]
      | some p =>
        obtain ⟨i, t1'⟩ := p
        obtain ⟨t2', hn2, hrel⟩ := nok i t1' hn
        rw [hn2]
        show (match disassembleFuel f t1' with
          | Except.ok l => Except.ok (i :: l)
          | Except.error e => Except.error e) =
          (match disassembleFuel f t2' with
          | Except.ok l => Except.ok (i :: l)
          | Except.error e => Except.error e)
        rw [ih hrel]

/-- C7: decoding depends only on the non-whitespace characters of the
input — inserting ASCII whitespace anywhere before a hex digit leaves the
decoded instruction sequence unchanged; in particular `"60 01"`, `"6001"`
and `"6\n0\t01"` all decode to exactly `Push(1, 1)`. -/
theorem C7_whitespace_insensitive :
    (∀ s1 s2 : List Nat,
      s1.filter (fun b => !isAsciiWhitespace b) =
        s2.filter (fun b => !isAsciiWhitespace b) →
      ∀ fuel, disassembleFuel fuel (initState s1) =
        disassembleFuel fuel (initState s2)) ∧
    disassemble (asciiBytes "60 01") = .ok [.Push 1 1] ∧
    disassemble (asciiBytes "6001") = .ok [.Push 1 1] ∧
    disassemble (asciiBytes "6\n0\t01") = .ok [.Push 1 1] := by
  refine ⟨?_, rfl, rfl, rfl⟩
  intro s1 s2 h fuel
  apply disassembleFuel_congr
  refine ⟨?_, rfl, rfl⟩
  show canon s1 = canon s2
  unfold canon
  rw [h]

/-- Witness for `C7_whitespace_insensitive`: `"60 01"` and `"6001"`
decode identically at any fuel. -/
theorem C7_whitespace_insensitive_witness :
    disassembleFuel 5 (initState (asciiBytes "60 01")) =
      disassembleFuel 5 (initState (asciiBytes "6001")) :=
  C7_whitespace_insensitive.1 (asciiBytes "60 01") (asciiBytes "6001")
    (by decide) 5

/-- C10: hex decoding is case-insensitive — replacing any hex letter with
its other-case form leaves the decoded instruction sequence unchanged; in
particular `"FF"` and `"ff"` both decode to `SelfDestruct`. -/
theorem C10_case_insensitive :
    (∀ s1 s2 : List Nat, s1.map lowerHex = s2.map lowerHex →
      ∀ fuel, disassembleFuel fuel (initState s1) =
        disassembleFuel fuel (initState s2)) ∧
    disassemble (asciiBytes "FF") = .ok [.SelfDestruct] ∧
    disassemble (asciiBytes "ff") = .ok [.SelfDestruct] := by
  refine ⟨?_, rfl, rfl⟩
  have hcanon : ∀ s1 s2 : List Nat, s1.map lowerHex = s2.map lowerHex →
      canon s1 = canon s2 := by
    intro s1
    induction s1 with
    | nil =>
      intro s2 h
      cases s2 with
      | nil => rfl
      | cons b bs => simp at h
    | cons a as ih =>
      intro s2 h
      cases s2 with
      | nil => simp at h
      | cons b bs =>
        simp only [List.map_cons, List.cons.injEq] at h
        have hws : isAsciiWhitespace a = isAsciiWhitespace b := by
          rw [← isAsciiWhitespace_lowerHex a, h.1, isAsciiWhitespace_lowerHex b]
        cases hb : isAsciiWhitespace b
        · rw [canon_cons_not_ws (by rw [hws]; exact hb),
            canon_cons_not_ws hb, h.1, ih bs h.2]
        · rw [canon_cons_ws (by rw [hws]; exact hb),
            canon_cons_ws hb]
          exact ih bs h.2
  intro s1 s2 h fuel
  apply disassembleFuel_congr
  exact ⟨hcanon s1 s2 h, rfl, rfl⟩

/-- Witness for `C10_case_insensitive`: `"FF"` and `"ff"` decode
identically at any fuel. -/
theorem C10_case_insensitive_witness :
    disassembleFuel 3 (initState (asciiBytes "FF")) =
      disassembleFuel 3 (initState (asciiBytes "ff")) :=
  C10_case_insensitive.1 (asciiBytes "FF") (asciiBytes "ff") (by decide) 3

/-! ### The rendering claim -/

theorem hexCharVal_hexChar {d : Nat} (h : d < 16) :
    hexCharVal (hexChar d) = d := by
  interval_cases d <;> decide

theorem isLowerHexChar_hexChar {d : Nat} (h : d < 16) :
    isLowerHexChar (hexChar d) = true := by
  interval_cases d <;> decide

theorem hexChar_ne_zero {d : Nat} (h1 : 1 ≤ d) (h2 : d < 16) :
    hexChar d ≠ '0' := by
  interval_cases d <;> decide

theorem hexRepr_succ (f n : Nat) :
    hexRepr (f + 1) n =
      if n < 16 then [hexChar n]
      else hexRepr f (n / 16) ++ [hexChar (n % 16)] := rfl

theorem hexValChars_append_singleton (ds : List Char) (c : Char) :
    hexValChars (ds ++ [c]) = hexValChars ds * 16 + hexCharVal c := by
  unfold hexValChars
  rw [List.foldl_append]
  rfl

theorem hexRepr_props : ∀ (fuel n : Nat), n < 16 ^ fuel →
    ((hexRepr fuel n).all isLowerHexChar = true) ∧
    (hexValChars (hexRepr fuel n) = n) ∧
    (∀ k, 1 ≤ k → n < 16 ^ k → (hexRepr fuel n).length ≤ k) ∧
    (1 ≤ n → ∀ c, (hexRepr fuel n).head? = some c → c ≠ '0') := by
  intro fuel
  induction fuel with
  | zero =>
    intro n hn
    have hn0 : n = 0 := by
      rw [pow_zero] at hn
      omega
    subst hn0
    refine ⟨rfl, rfl, ?_, ?_⟩
    · intro k hk hnk
      show (0 : Nat) ≤ k
      omega
    · intro h1
      omega
  | succ f ih =>
    intro n hn
    by_cases hsmall : n < 16
    · have he : hexRepr (f + 1) n = [hexChar n] := by
        rw [hexRepr_succ, if_pos hsmall]
      rw [he]
      refine ⟨?_, ?_, ?_, ?_⟩
      · simp [isLowerHexChar_hexChar hsmall]
      · unfold hexValChars
        simp [hexCharVal_hexChar hsmall]
      · intro k hk hnk
        simpa using hk
      · intro h1 c hc
        simp only [List.head?_cons, Option.some.injEq] at hc
        rw [← hc]
        exact hexChar_ne_zero h1 hsmall
    · have hge : 16 ≤ n := by omega
      have hpow : (16 : Nat) ^ (f + 1) = 16 ^ f * 16 := pow_succ 16 f
      have hdiv : n / 16 < 16 ^ f := by
        rw [hpow] at hn
        omega
      obtain ⟨ihall, ihval, ihlen, ihhead⟩ := ih (n / 16) hdiv
      have he : hexRepr (f + 1) n = hexRepr f (n / 16) ++ [hexChar (n % 16)] := by
        rw [hexRepr_succ, if_neg (by omega)]
      rw [he]
      have hmod : n % 16 < 16 := Nat.mod_lt _ (by norm_num)
      refine ⟨?_, ?_, ?_, ?_⟩
      · rw [List.all_append]
        simp [ihall, isLowerHexChar_hexChar hmod]
      · rw [hexValChars_append_singleton, ihval, hexCharVal_hexChar hmod]
        omega
      · intro k hk hnk
        have hk2 : 2 ≤ k := by
          by_contra hcon
          have hk1 : k = 1 := by omega
          rw [hk1, pow_one] at hnk
          omega
        have hpk : (16 : Nat) ^ k = 16 ^ (k - 1) * 16 := by
          rw [← pow_succ]
          congr 1
          omega
        have hdivk : n / 16 < 16 ^ (k - 1) := by
          rw [hpk] at hnk
          omega
        have hlen2 := ihlen (k - 1) (by omega) hdivk
        rw [List.length_append]
        simp only [List.length_cons, List.length_nil]
        omega
      · intro h1 c hc
        have hne : hexRepr f (n / 16) ≠ [] := by
          intro hnil
          rw [hnil] at ihval
          unfold hexValChars at ihval
          simp at ihval
          omega
        obtain ⟨a, as, hcons⟩ := List.exists_cons_of_ne_nil hne
        rw [hcons] at hc
        simp only [List.cons_append, List.head?_cons, Option.some.injEq] at hc
        have hhead := ihhead (by omega) a (by rw [hcons]; rfl)
        rw [← hc]
        exact hhead

theorem natHexChars_props (n : Nat) :
    ((natHexChars n).all isLowerHexChar = true) ∧
    (hexValChars (natHexChars n) = n) ∧
    (∀ k, 1 ≤ k → n < 16 ^ k → (natHexChars n).length ≤ k) ∧
    (1 ≤ n → ∀ c, (natHexChars n).head? = some c → c ≠ '0') := by
  have hlt : n < 16 ^ (n + 1) := by
    have h1 : n + 1 < 16 ^ (n + 1) := Nat.lt_pow_self (by norm_num) (n + 1)
    omega
  exact hexRepr_props (n + 1) n hlt

theorem foldl_replicate_zero : ∀ k : Nat,
    List.foldl (fun acc c => acc * 16 + hexCharVal c) 0 (List.replicate k '0') = 0 := by
  intro k
  induction k with
  | zero => rfl
  | succ m ih =>
    rw [List.replicate_succ, List.foldl_cons,
      show (0 * 16 + hexCharVal '0') = 0 from by decide]
    exact ih

theorem hexValChars_zeroPad (w : Nat) (ds : List Char) :
    hexValChars (zeroPad w ds) = hexValChars ds := by
  unfold zeroPad hexValChars
  rw [List.foldl_append, foldl_replicate_zero]

theorem zeroPad_length {w : Nat} {ds : List Char} (h : ds.length ≤ w) :
    (zeroPad w ds).length = w := by
  unfold zeroPad
  rw [List.length_append, List.length_replicate]
  omega

theorem zeroPad_all_lower {w : Nat} {ds : List Char}
    (h : ds.all isLowerHexChar = true) :
    (zeroPad w ds).all isLowerHexChar = true := by
  unfold zeroPad
  rw [List.all_append, h, Bool.and_true]
  simp only [List.all_eq_true]
  intro c hc
  rw [List.eq_of_mem_replicate hc]
  decide

/-- C8: rendering is the canonical single-line lowercase form — sampled
payload-free variants render as their bare mnemonic; `JumpDest(off)`
renders as `"jumpdest :"` followed by the unpadded lowercase hex digits
of `off` (no leading zero except for `off = 0`, which renders as `"0"`);
`Push(size, value)` (with the declared payload range `1 ≤ size`,
`value < 256 ^ size`) renders as `"push"`, the decimal size, a space, and
exactly `2 * size` lowercase hex digits denoting `value`; `Unknown(byte)`
renders as 2 lowercase hex digits denoting the byte between `'?'`s. -/
theorem C8_rendering :
    (Instruction.display .Add = "add" ∧ Instruction.display .Stop = "stop" ∧
      Instruction.display .SelfDestruct = "selfdestruct") ∧
    (∀ off, ∃ ds, Instruction.display (.JumpDest off) =
        "jumpdest :" ++ String.mk ds ∧
      ds.all isLowerHexChar = true ∧ hexValChars ds = off ∧
      (off = 0 → ds = ['0']) ∧
      (1 ≤ off → ∀ c, ds.head? = some c → c ≠ '0')) ∧
    (∀ size v, 1 ≤ size → v < 256 ^ size → ∃ ds,
      Instruction.display (.Push size v) =
        "push" ++ toString size ++ " " ++ String.mk ds ∧
      ds.length = 2 * size ∧ ds.all isLowerHexChar = true ∧
      hexValChars ds = v) ∧
    (∀ b, b < 256 → ∃ ds,
      Instruction.display (.Unknown b) = "?" ++ String.mk ds ++ "?" ∧
      ds.length = 2 ∧ ds.all isLowerHexChar = true ∧ hexValChars ds = b) := by
  refine ⟨⟨rfl, rfl, rfl⟩, ?_, ?_, ?_⟩
  · intro off
    obtain ⟨hall, hval, hlen, hhead⟩ := natHexChars_props off
    refine ⟨natHexChars off, rfl, hall, hval, ?_, hhead⟩
    intro h0
    subst h0
    rfl
  · intro size v hsize hv
    obtain ⟨hall, hval, hlen, -⟩ := natHexChars_props v
    have hvlt : v < 16 ^ (size * 2) := by
      rw [pow16_two_mul]
      exact hv
    have hle : (natHexChars v).length ≤ size * 2 := hlen (size * 2) (by omega) hvlt
    refine ⟨zeroPad (size * 2) (natHexChars v), rfl, ?_, ?_, ?_⟩
    · rw [zeroPad_length hle]
      omega
    · exact zeroPad_all_lower hall
    · rw [hexValChars_zeroPad]
      exact hval
  · intro b hb
    obtain ⟨hall, hval, hlen, -⟩ := natHexChars_props b
    have hle : (natHexChars b).length ≤ 2 :=
      hlen 2 (by omega) (by norm_num; omega)
    refine ⟨zeroPad 2 (natHexChars b), rfl, ?_, ?_, ?_⟩
    · rw [zeroPad_length hle]
    · exact zeroPad_all_lower hall
    · rw [hexValChars_zeroPad]
      exact hval

/-- Witness for `C8_rendering`: the payload cases at `JumpDest 2`,
`Push(1, 255)` and `Unknown(33)`. -/
theorem C8_rendering_witness :
    (∃ ds, Instruction.display (.JumpDest 2) = "jumpdest :" ++ String.mk ds ∧
      ds.all isLowerHexChar = true ∧ hexValChars ds = 2 ∧
      (2 = 0 → ds = ['0']) ∧
      (1 ≤ 2 → ∀ c, ds.head? = some c → c ≠ '0')) ∧
    (∃ ds, Instruction.display (.Push 1 255) =
        "push" ++ toString 1 ++ " " ++ String.mk ds ∧
      ds.length = 2 * 1 ∧ ds.all isLowerHexChar = true ∧
      hexValChars ds = 255) ∧
    (∃ ds, Instruction.display (.Unknown 33) = "?" ++ String.mk ds ++ "?" ∧
      ds.length = 2 ∧ ds.all isLowerHexChar = true ∧ hexValChars ds = 33) :=
  ⟨C8_rendering.2.1 2,
    C8_rendering.2.2.1 1 255 (by decide) (by decide),
    C8_rendering.2.2.2 33 (by decide)⟩

end Evmdump
